import Mathlib

/-!
# A verification development for the `chapter2` expression parser

This file gives a shallow embedding, in Lean 4, of the Rust source files
`src/chapter2/language.rs` and `src/chapter2/parser.rs` of the repository, and
proves properties of the embedded definitions.

Modelling conventions:

* Rust `&str` slices are modelled as `List Char`; a returned remainder is the
  corresponding suffix of the input list.
* `nom`'s `IResult<&str, T>` is modelled by `PRes T` below, with constructors
  for `Ok`, `Err::Error` (recoverable) and `Err::Failure` (fatal).  The parsers
  in scope are all `complete` parsers, so `Err::Incomplete` never arises and is
  not modelled.  A fourth constructor `bottom` is the out-of-fuel marker used to
  embed the (in Rust, unboundedly) recursive `expression` function as a total
  Lean function; it is proved below (`expressionF_ne_bottom`) that `bottom` is
  never the result on any input when the fuel exceeds the input length.
* `nom`'s default error type `nom::error::Error { input, code }` is modelled by
  `PError`; its `or` and `append` operations both return the newer error
  unchanged, which is reflected in the embedding of `alt` (`altList`): the
  error of an exhausted alternation is the error of its last alternative.
* `f64` values produced by `nom::number::complete::double` are modelled by
  `FVal`: the exact rational value denoted by the recognized literal, or the
  special values infinity / NaN recognized by `double`'s exception branches.
  The final rounding of the exact decimal value to the nearest `f64` is a
  function of that rational value, so equality of the embedded rationals for
  two literals implies equality of the `f64` values the Rust code produces
  (overflow of huge exponents to infinity is outside every statement below).
* `nom`'s `double` (nom 7, `str` input) is `recognize_float_or_exceptions`
  followed by conversion: an optional sign, then either `digit1` optionally
  followed by `'.'` and optional digits, or `'.'` followed by `digit1`, then an
  optional exponent `e`/`E`, optional sign, and (under `cut`, hence a fatal
  error when absent) `digit1`; errors are re-reported at the original input
  with the `Float` kind, and the exception branches accept `nan`, `inf`,
  `infinity` case-insensitively (the `infinity` branch is shadowed by the
  earlier `inf` branch, which already succeeds on its first three characters).
-/

namespace Chapter2

/-- The five-variant expression AST of `language.rs`, with `f64` fields
modelled by `FVal` (see the file comment). -/
inductive FVal where
  | num (q : ℚ)
  | inf
  | nan
deriving DecidableEq, Repr

/-- `Expression` from `language.rs`: a closed tagged union with structural
equality; recursive children are uniquely owned boxes, modelled as plain
subterms. -/
inductive Expression where
  | Translation (u v : FVal)
  | Rotation (u v theta : FVal)
  | Chained (left right : Expression)
  | EitherOr (left right : Expression)
  | Iterate (body : Expression)
deriving DecidableEq, Repr

/-- The `nom::error::ErrorKind` values reachable in this embedding. -/
inductive ErrorKind where
  | char
  | tag
  | float
  | alt
deriving DecidableEq, Repr

/-- `nom`'s default error type `nom::error::Error<&str>`: the input position at
which the error was raised, and the kind of the failing combinator. -/
structure PError where
  input : List Char
  code : ErrorKind
deriving DecidableEq, Repr

/-- `IResult<&str, α>` with `Err::Error` (recoverable) and `Err::Failure`
(fatal); `bottom` is the out-of-fuel marker of the embedding, never the result
of any parser in scope (proved below). -/
inductive PRes (α : Type) where
  | ok (rest : List Char) (val : α)
  | err (e : PError)
  | fail (e : PError)
  | bottom
deriving DecidableEq, Repr

/-- Sequencing of parser results, as performed by `nom`'s tuple combinator and
by the `?` operator in the Rust source: `Ok` feeds the remainder onward, every
error is propagated unchanged. -/
def pbind {α β : Type} (r : PRes α) (f : List Char → α → PRes β) : PRes β :=
  match r with
  | .ok rest a => f rest a
  | .err e => .err e
  | .fail e => .fail e
  | .bottom => .bottom

/-- The whitespace class of `nom::character::complete::multispace0`:
space, tab, carriage return, line feed. -/
def isWs (c : Char) : Bool :=
  c = ' ' || c = '\t' || c = '\r' || c = '\n'

/-- `multispace0`: consume the longest whitespace prefix; never fails. -/
def multispace0 (text : List Char) : PRes Unit :=
  .ok (text.dropWhile isWs) ()

/-- `nom::character::complete::char(c)`: consume exactly `c`, else a
recoverable error of kind `Char` at the current input. -/
def charP (c : Char) (text : List Char) : PRes Unit :=
  match text with
  | d :: rest => if d = c then .ok rest () else .err ⟨text, .char⟩
  | [] => .err ⟨text, .char⟩

/-- `nom::bytes::complete::tag(t)`: consume the literal `t`, else a recoverable
error of kind `Tag` at the current input. -/
def tagP (t : List Char) (text : List Char) : PRes Unit :=
  if t.isPrefixOf text then .ok (text.drop t.length) () else .err ⟨text, .tag⟩

/-- `nom::bytes::complete::tag_no_case(t)`: like `tagP` but comparing
case-insensitively. -/
def tagNoCaseP (t : List Char) (text : List Char) : PRes Unit :=
  if (text.take t.length).map Char.toLower = t.map Char.toLower then
    .ok (text.drop t.length) ()
  else .err ⟨text, .tag⟩

/-- ASCII digit test, as used by `digit1` inside `recognize_float`. -/
def isDigit (c : Char) : Bool :=
  48 ≤ c.toNat && c.toNat ≤ 57

/-- Numeric value of a digit string (most significant first). -/
def digitsVal (l : List Char) : ℕ :=
  l.foldl (fun a c => 10 * a + (c.toNat - 48)) 0

/-- The exact rational value of a decimal literal whose mantissa is
`mnum / mden` (with `mden` a power of ten), with sign `sign` and no exponent
part.  Built with `mkRat` directly so that the value is computable by kernel
reduction. -/
def litVal (sign mnum : ℤ) (mden : ℕ) : ℚ :=
  mkRat (sign * mnum) mden

/-- As `litVal`, scaled by the exponent part `10 ^ (± e)`. -/
def litValExp (sign mnum : ℤ) (mden : ℕ) (eneg : Bool) (e : ℕ) : ℚ :=
  if eneg then mkRat (sign * mnum) (mden * 10 ^ e)
  else mkRat (sign * mnum * (10 : ℤ) ^ e) mden

/-- The optional sign of the exponent part of `recognize_float`:
whether a `-` was consumed, and the remaining input. -/
def expSignSplit (t : List Char) : Bool × List Char :=
  match t with
  | c :: u =>
    if c = '+' then (false, u)
    else if c = '-' then (true, u)
    else (false, t)
  | [] => (false, t)

/-- The `digit1` tail of the exponent, after its optional sign (see
`expDigits`). -/
def expDigitsAfterSign (sign mnum : ℤ) (mden : ℕ) (orig : List Char)
    (eneg : Bool) (t1 : List Char) : PRes ℚ :=
  if t1.takeWhile isDigit = [] then .fail ⟨orig, .float⟩
  else .ok (t1.dropWhile isDigit)
    (litValExp sign mnum mden eneg (digitsVal (t1.takeWhile isDigit)))

/-- The exponent tail of `recognize_float`, entered after `e`/`E` was consumed:
optional sign, then `digit1` under `cut` — a missing digit is a *fatal* error,
re-reported (by `recognize_float_or_exceptions`) at the original input `orig`
with kind `Float`.  The mantissa recognized so far is carried as
`sign`, `mnum`, `mden` (value `sign * mnum / mden`). -/
def expDigits (sign mnum : ℤ) (mden : ℕ) (orig t : List Char) : PRes ℚ :=
  expDigitsAfterSign sign mnum mden orig (expSignSplit t).1 (expSignSplit t).2

/-- The optional exponent of `recognize_float`: if the next character is `e` or
`E` the exponent tail is mandatory (see `expDigits`), otherwise the mantissa
value is returned as is. -/
def expPart (sign mnum : ℤ) (mden : ℕ) (orig s : List Char) : PRes ℚ :=
  match s with
  | c :: t =>
    if c = 'e' ∨ c = 'E' then expDigits sign mnum mden orig t
    else .ok s (litVal sign mnum mden)
  | [] => .ok s (litVal sign mnum mden)

/-- Continuation of the mantissa after a nonempty run of digits `ds`: an
optional `'.'` followed by optional further digits `fs`; the mantissa value is
`(ds * 10 ^ |fs| + fs) / 10 ^ |fs|`.  The argument `s2` is the input after
`ds`. -/
def mantFrac (sign : ℤ) (ds : List Char) (orig s2 : List Char) : PRes ℚ :=
  match s2 with
  | c :: s3 =>
    if c = '.' then
      expPart sign
        ((digitsVal ds) * 10 ^ (s3.takeWhile isDigit).length
          + digitsVal (s3.takeWhile isDigit))
        (10 ^ (s3.takeWhile isDigit).length) orig (s3.dropWhile isDigit)
    else expPart sign (digitsVal ds) 1 orig s2
  | [] => expPart sign (digitsVal ds) 1 orig s2

/-- The mantissa alternative `'.'` followed by `digit1`, taken when the
mantissa does not start with a digit. -/
def mantDotOnly (sign : ℤ) (orig s1 : List Char) : PRes ℚ :=
  match s1 with
  | c :: s3 =>
    if c = '.' then
      if s3.takeWhile isDigit = [] then .err ⟨orig, .float⟩
      else expPart sign (digitsVal (s3.takeWhile isDigit))
        (10 ^ (s3.takeWhile isDigit).length) orig (s3.dropWhile isDigit)
    else .err ⟨orig, .float⟩
  | [] => .err ⟨orig, .float⟩

/-- The mantissa of `recognize_float`, after the optional sign: either `digit1`
optionally followed by `'.'` and optional further digits, or `'.'` followed by
`digit1`; recoverable errors are reported at the original input `orig` with
kind `Float`. -/
def mantAfterSign (sign : ℤ) (orig s1 : List Char) : PRes ℚ :=
  if s1.takeWhile isDigit = [] then mantDotOnly sign orig s1
  else mantFrac sign (s1.takeWhile isDigit) orig (s1.dropWhile isDigit)

/-- `recognize_float`, fused with the evaluation of the recognized literal to
its exact rational value: optional sign, mantissa, optional exponent. -/
def recFloat (s : List Char) : PRes ℚ :=
  match s with
  | c :: t =>
    if c = '+' then mantAfterSign 1 s t
    else if c = '-' then mantAfterSign (-1) s t
    else mantAfterSign 1 s s
  | [] => mantAfterSign 1 s s

/-- `nom::number::complete::double`: `recognize_float_or_exceptions` followed
by conversion of the recognized text.  The exception branches accept `nan` and
`inf` case-insensitively (the `infinity` branch of the Rust source is shadowed
by `inf`, which succeeds on its first three characters, so it is unreachable
and omitted); when everything fails the error of the last alternative —
kind `Float` at the original input — is returned. -/
def doubleP (text : List Char) : PRes FVal :=
  match recFloat text with
  | .ok rest v => .ok rest (.num v)
  | .fail e => .fail e
  | .bottom => .bottom
  | .err _ =>
    match tagNoCaseP ['n', 'a', 'n'] text with
    | .ok rest _ => .ok rest .nan
    | _ =>
      match tagNoCaseP ['i', 'n', 'f'] text with
      | .ok rest _ => .ok rest .inf
      | _ => .err ⟨text, .float⟩

/-- `comma_separator` from `parser.rs`. -/
def comma_separator (text : List Char) : PRes Unit :=
  pbind (multispace0 text) fun text _ =>
  pbind (charP ',' text) fun text _ =>
  pbind (multispace0 text) fun text _ =>
  .ok text ()

/-- `semicolon_separator` from `parser.rs`. -/
def semicolon_separator (text : List Char) : PRes Unit :=
  pbind (multispace0 text) fun text _ =>
  pbind (charP ';' text) fun text _ =>
  pbind (multispace0 text) fun text _ =>
  .ok text ()

/-- `float_pair` from `parser.rs`. -/
def float_pair (text : List Char) : PRes (FVal × FVal) :=
  pbind (doubleP text) fun text f1 =>
  pbind (comma_separator text) fun text _ =>
  pbind (doubleP text) fun text f2 =>
  .ok text (f1, f2)

/-- `float_triple` from `parser.rs`. -/
def float_triple (text : List Char) : PRes (FVal × FVal × FVal) :=
  pbind (doubleP text) fun text f1 =>
  pbind (comma_separator text) fun text _ =>
  pbind (doubleP text) fun text f2 =>
  pbind (comma_separator text) fun text _ =>
  pbind (doubleP text) fun text f3 =>
  .ok text (f1, f2, f3)

/-- `parenthesized_float_pair` from `parser.rs`. -/
def parenthesized_float_pair (text : List Char) : PRes (FVal × FVal) :=
  pbind (charP '(' text) fun text _ =>
  pbind (multispace0 text) fun text _ =>
  pbind (float_pair text) fun text fp =>
  pbind (multispace0 text) fun text _ =>
  pbind (charP ')' text) fun text _ =>
  .ok text fp

/-- `parenthesized_float_triple` from `parser.rs`. -/
def parenthesized_float_triple (text : List Char) : PRes (FVal × FVal × FVal) :=
  pbind (charP '(' text) fun text _ =>
  pbind (multispace0 text) fun text _ =>
  pbind (float_triple text) fun text ft =>
  pbind (multispace0 text) fun text _ =>
  pbind (charP ')' text) fun text _ =>
  .ok text ft

/-- `translation_expression` from `parser.rs`. -/
def translation_expression (text : List Char) : PRes Expression :=
  pbind (tagP ("translation".toList) text) fun text _ =>
  pbind (multispace0 text) fun text _ =>
  pbind (parenthesized_float_pair text) fun text uv =>
  .ok text (.Translation uv.1 uv.2)

/-- `rotation_expression` from `parser.rs`. -/
def rotation_expression (text : List Char) : PRes Expression :=
  pbind (tagP ("rotation".toList) text) fun text _ =>
  pbind (multispace0 text) fun text _ =>
  pbind (parenthesized_float_triple text) fun text uvt =>
  .ok text (.Rotation uvt.1 uvt.2.1 uvt.2.2)

/-- `iterate_expression` from `parser.rs`, parameterized by the recursive call
to `expression` (tied below). -/
def iterate_expressionR (rec : List Char → PRes Expression) (text : List Char) :
    PRes Expression :=
  pbind (tagP ("iter".toList) text) fun text _ =>
  pbind (multispace0 text) fun text _ =>
  pbind (charP '(' text) fun text _ =>
  pbind (multispace0 text) fun text _ =>
  pbind (rec text) fun text body =>
  pbind (multispace0 text) fun text _ =>
  pbind (charP ')' text) fun text _ =>
  .ok text (.Iterate body)

/-- `eitheror_leaf` from `parser.rs`, parameterized by the recursive call to
`expression`. -/
def eitheror_leafR (rec : List Char → PRes Expression) (text : List Char) :
    PRes Expression :=
  pbind (charP '{' text) fun text _ =>
  pbind (multispace0 text) fun text _ =>
  pbind (rec text) fun text expr =>
  pbind (multispace0 text) fun text _ =>
  pbind (charP '}' text) fun text _ =>
  .ok text expr

/-- `eitheror_expression` from `parser.rs`, parameterized by the recursive call
to `expression`. -/
def eitheror_expressionR (rec : List Char → PRes Expression) (text : List Char) :
    PRes Expression :=
  pbind (eitheror_leafR rec text) fun text left =>
  pbind (multispace0 text) fun text _ =>
  pbind (tagP ("or".toList) text) fun text _ =>
  pbind (multispace0 text) fun text _ =>
  pbind (eitheror_leafR rec text) fun text right =>
  .ok text (.EitherOr left right)

/-- `nom::branch::alt`, over a list of alternatives, for the default error
type: alternatives are tried in order, a recoverable error moves on to the next
alternative, any other result stops the alternation; the error of an exhausted
alternation is the error of the last alternative (`Error::or` and
`Error::append` both return the newer error unchanged). -/
def altList {α : Type} (ps : List (List Char → PRes α)) (s : List Char) : PRes α :=
  match ps with
  | [] => .err ⟨s, .alt⟩
  | [p] => p s
  | p :: rest =>
    match p s with
    | .err _ => altList rest s
    | r => r

/-- The fixed alternative list of the `alt` call in `expression`:
translation, rotation, iterate, eitherOr, in that order. -/
def atom_alternatives (rec : List Char → PRes Expression) :
    List (List Char → PRes Expression) :=
  [translation_expression, rotation_expression,
   iterate_expressionR rec, eitheror_expressionR rec]

/-- Does the list start with the character `c`?  (`str::starts_with`.) -/
def startsWithChar (l : List Char) (c : Char) : Bool :=
  match l with
  | d :: _ => d = c
  | [] => false

/-- After a `;` was consumed, another full expression is mandatory: its result
is combined with the atom into `Chained`, and any of its errors propagates
unchanged (the `?` operator in the Rust source). -/
def chain_continue (rec : List Char → PRes Expression) (expr : Expression)
    (text_after_semicolon : List Char) : PRes Expression :=
  match rec text_after_semicolon with
  | .ok trailing_text additional_expression =>
    .ok trailing_text (.Chained expr additional_expression)
  | r => r

/-- The chaining check of `expression`, after an atom `expr` was parsed with
remainder `remaining_text`: try `semicolon_separator` — on success chain (see
`chain_continue`); on a recoverable miss the error's input (the remainder with
leading whitespace stripped) is inspected: if it is empty or starts with `)` or
`}` the single atom is returned with the *unstripped* remainder, otherwise the
recoverable error is upgraded to a fatal `Err::Failure`. -/
def chain_check (rec : List Char → PRes Expression) (remaining_text : List Char)
    (expr : Expression) : PRes Expression :=
  match semicolon_separator remaining_text with
  | .ok text_after_semicolon _ => chain_continue rec expr text_after_semicolon
  | .err inner_error =>
    if inner_error.input = [] || startsWithChar inner_error.input ')' ||
        startsWithChar inner_error.input '}' then
      .ok remaining_text expr
    else .fail inner_error
  | .fail e => .fail e
  | .bottom => .bottom

/-- The body of `expression` from `parser.rs`, parameterized by the recursive
call: parse one atom by alternation, then perform the chaining check. -/
def expression_body (rec : List Char → PRes Expression) (text : List Char) :
    PRes Expression :=
  match altList (atom_alternatives rec) text with
  | .ok remaining_text expr => chain_check rec remaining_text expr
  | r => r

/-- Fuelled unfolding of the recursive `expression` function. -/
def expressionF : ℕ → List Char → PRes Expression
  | 0, _ => .bottom
  | n + 1, text => expression_body (expressionF n) text

/-- `expression` from `parser.rs`: the top-level expression parser.  The fuel
`text.length + 1` is sufficient (`expression_ne_bottom` below), because every
recursive self-call consumes at least one character first. -/
def expression (text : List Char) : PRes Expression :=
  expressionF (text.length + 1) text

/-- `iterate_expression` from `parser.rs`, with the recursion tied. -/
def iterate_expression (text : List Char) : PRes Expression :=
  iterate_expressionR expression text

/-- `eitheror_leaf` from `parser.rs`, with the recursion tied. -/
def eitheror_leaf (text : List Char) : PRes Expression :=
  eitheror_leafR expression text

/-- `eitheror_expression` from `parser.rs`, with the recursion tied. -/
def eitheror_expression (text : List Char) : PRes Expression :=
  eitheror_expressionR expression text

/-- The atom alternation step of `expression`, with the recursion tied. -/
def atomP (text : List Char) : PRes Expression :=
  altList (atom_alternatives expression) text

/-! ## Whitespace-decorated program trees

To state whitespace invariance, a valid program text is presented as a tree
decorated with an arbitrary whitespace run at every interior insertion point
the grammar admits (one `List Char` field per separator position, containing
only whitespace characters), and with explicit digit strings at the float
literals.  `render` flattens such a tree to program text; `strip` is the
`Expression` its tokens denote.  Two decorations with the same `strip` differ
exactly by whitespace insertion around tokens and separators. -/

/-- An optional sign token of a float literal or exponent. -/
inductive Sgn where
  | sNone
  | sPlus
  | sMinus
deriving DecidableEq, Repr

/-- The text of a sign token. -/
def Sgn.render : Sgn → List Char
  | .sNone => []
  | .sPlus => ['+']
  | .sMinus => ['-']

/-- Is the sign `-`? -/
def Sgn.isNeg : Sgn → Bool
  | .sMinus => true
  | _ => false

/-- The sign as a factor. -/
def Sgn.toInt : Sgn → ℤ
  | .sMinus => -1
  | _ => 1

/-- A mantissa token: digits, digits `.` optional digits, or `.` digits —
exactly the three shapes `recognize_float` accepts. -/
inductive WMant where
  | mInt (ds : List Char)
  | mIntFrac (ds fs : List Char)
  | mFrac (fs : List Char)
deriving DecidableEq, Repr

/-- The text of a mantissa token. -/
def WMant.render : WMant → List Char
  | .mInt ds => ds
  | .mIntFrac ds fs => ds ++ '.' :: fs
  | .mFrac fs => '.' :: fs

/-- Well-formedness of a mantissa token. -/
def WMant.valid : WMant → Bool
  | .mInt ds => !ds.isEmpty && ds.all isDigit
  | .mIntFrac ds fs => !ds.isEmpty && ds.all isDigit && fs.all isDigit
  | .mFrac fs => !fs.isEmpty && fs.all isDigit

/-- Numerator of the mantissa value. -/
def WMant.mnum : WMant → ℤ
  | .mInt ds => digitsVal ds
  | .mIntFrac ds fs => digitsVal ds * 10 ^ fs.length + digitsVal fs
  | .mFrac fs => digitsVal fs

/-- Denominator of the mantissa value (a power of ten). -/
def WMant.mden : WMant → ℕ
  | .mInt _ => 1
  | .mIntFrac _ fs => 10 ^ fs.length
  | .mFrac fs => 10 ^ fs.length

/-- The text of an optional exponent part: `e`, optional sign, digits. -/
def expRender : Option (Sgn × List Char) → List Char
  | some (es, eds) => 'e' :: (es.render ++ eds)
  | none => []

/-- Well-formedness of an optional exponent part: nonempty digits. -/
def expValidB : Option (Sgn × List Char) → Bool
  | some (_, eds) => !eds.isEmpty && eds.all isDigit
  | none => true

/-- The value of a literal with mantissa `sign * mnum / mden` and the given
optional exponent part. -/
def expVal (sign mnum : ℤ) (mden : ℕ) : Option (Sgn × List Char) → ℚ
  | some (es, eds) => litValExp sign mnum mden es.isNeg (digitsVal eds)
  | none => litVal sign mnum mden

/-- A float-literal token: sign, mantissa, optional exponent (sign and
digits). -/
structure WLit where
  sgn : Sgn
  mant : WMant
  exp : Option (Sgn × List Char)
deriving DecidableEq, Repr

/-- The text of a float-literal token. -/
def WLit.render (l : WLit) : List Char :=
  l.sgn.render ++ l.mant.render ++ expRender l.exp

/-- Well-formedness of a float-literal token. -/
def WLit.valid (l : WLit) : Bool :=
  l.mant.valid && expValidB l.exp

/-- The exact rational value of a float-literal token, as computed by the
`double` embedding. -/
def WLit.val (l : WLit) : ℚ :=
  expVal l.sgn.toInt l.mant.mnum l.mant.mden l.exp

mutual
/-- An atom of the grammar, decorated with one whitespace run per insertion
point the corresponding parser tolerates. -/
inductive WAtom where
  | wtranslation (w1 w2 : List Char) (a : WLit) (w3 w4 : List Char) (b : WLit)
      (w5 : List Char)
  | wrotation (w1 w2 : List Char) (a : WLit) (w3 w4 : List Char) (b : WLit)
      (w5 w6 : List Char) (c : WLit) (w7 : List Char)
  | witer (w1 w2 : List Char) (body : WExpr) (w3 : List Char)
  | weither (w1 : List Char) (left : WExpr) (w2 w3 w4 w5 : List Char)
      (right : WExpr) (w6 : List Char)

/-- An expression of the grammar (an atom or a `;`-chain), decorated with
whitespace runs. -/
inductive WExpr where
  | wsingle (a : WAtom)
  | wchain (a : WAtom) (w1 w2 : List Char) (rest : WExpr)
end

mutual
/-- Flatten a decorated atom to program text:
`translation w1 ( w2 lit w3 , w4 lit w5 )`, etc. -/
def WAtom.render : WAtom → List Char
  | .wtranslation w1 w2 a w3 w4 b w5 =>
    "translation".toList ++ w1 ++
      '(' :: (w2 ++ a.render ++ w3 ++ ',' :: (w4 ++ b.render ++ w5 ++ [')']))
  | .wrotation w1 w2 a w3 w4 b w5 w6 c w7 =>
    "rotation".toList ++ w1 ++
      '(' :: (w2 ++ a.render ++ w3 ++ ',' :: (w4 ++ b.render ++ w5 ++
        ',' :: (w6 ++ c.render ++ w7 ++ [')'])))
  | .witer w1 w2 body w3 =>
    "iter".toList ++ w1 ++ '(' :: (w2 ++ body.render ++ w3 ++ [')'])
  | .weither w1 left w2 w3 w4 w5 right w6 =>
    '{' :: (w1 ++ left.render ++ w2 ++ '}' :: (w3 ++ "or".toList ++ w4 ++
      '{' :: (w5 ++ right.render ++ w6 ++ ['}'])))

/-- Flatten a decorated expression to program text. -/
def WExpr.render : WExpr → List Char
  | .wsingle a => a.render
  | .wchain a w1 w2 rest => a.render ++ w1 ++ ';' :: (w2 ++ rest.render)
end

/-- Does a list consist of whitespace only? -/
def allWs (w : List Char) : Bool :=
  w.all isWs

mutual
/-- Well-formedness of a decorated atom: every whitespace field holds only
whitespace and every literal is well-formed. -/
def WAtom.valid : WAtom → Bool
  | .wtranslation w1 w2 a w3 w4 b w5 =>
    allWs w1 && allWs w2 && a.valid && allWs w3 && allWs w4 && b.valid && allWs w5
  | .wrotation w1 w2 a w3 w4 b w5 w6 c w7 =>
    allWs w1 && allWs w2 && a.valid && allWs w3 && allWs w4 && b.valid &&
      allWs w5 && allWs w6 && c.valid && allWs w7
  | .witer w1 w2 body w3 => allWs w1 && allWs w2 && body.valid && allWs w3
  | .weither w1 left w2 w3 w4 w5 right w6 =>
    allWs w1 && left.valid && allWs w2 && allWs w3 && allWs w4 && allWs w5 &&
      right.valid && allWs w6

/-- Well-formedness of a decorated expression. -/
def WExpr.valid : WExpr → Bool
  | .wsingle a => a.valid
  | .wchain a w1 w2 rest => a.valid && allWs w1 && allWs w2 && rest.valid
end

mutual
/-- The `Expression` a decorated atom denotes (whitespace forgotten). -/
def WAtom.strip : WAtom → Expression
  | .wtranslation _ _ a _ _ b _ => .Translation (.num a.val) (.num b.val)
  | .wrotation _ _ a _ _ b _ _ c _ => .Rotation (.num a.val) (.num b.val) (.num c.val)
  | .witer _ _ body _ => .Iterate body.strip
  | .weither _ left _ _ _ _ right _ => .EitherOr left.strip right.strip

/-- The `Expression` a decorated expression denotes. -/
def WExpr.strip : WExpr → Expression
  | .wsingle a => a.strip
  | .wchain a _ _ rest => .Chained a.strip rest.strip
end

/-- A suffix before which a float literal ends: empty, or starting with a
character that neither extends a digit run nor starts a fraction or an
exponent. -/
def floatStop (r : List Char) : Prop :=
  ∀ c, r.head? = some c → isDigit c = false ∧ c ≠ '.' ∧ c ≠ 'e' ∧ c ≠ 'E'

/-! ## Basic lemmas about the result type and the primitive parsers -/

theorem pbind_ok {α β : Type} {r : PRes α} {f : List Char → α → PRes β}
    {rest : List Char} {b : β} (h : pbind r f = .ok rest b) :
    ∃ m a, r = .ok m a ∧ f m a = .ok rest b := by
  cases r with
  | ok m a => exact ⟨m, a, rfl, h⟩
  | err e => exact absurd h (by simp [pbind])
  | fail e => exact absurd h (by simp [pbind])
  | bottom => exact absurd h (by simp [pbind])

theorem pbind_bottom {α β : Type} {r : PRes α} {f : List Char → α → PRes β}
    (h : pbind r f = .bottom) :
    r = .bottom ∨ ∃ m a, r = .ok m a ∧ f m a = .bottom := by
  cases r with
  | ok m a => exact .inr ⟨m, a, rfl, h⟩
  | err e => exact absurd h (by simp [pbind])
  | fail e => exact absurd h (by simp [pbind])
  | bottom => exact .inl rfl

theorem pbind_ok_arg {α β : Type} {r : PRes α} (f : List Char → α → PRes β)
    {m : List Char} {a : α} (h : r = .ok m a) : pbind r f = f m a := by
  subst h; rfl

theorem dropWhile_length_le (p : Char → Bool) :
    ∀ l : List Char, (l.dropWhile p).length ≤ l.length := by
  intro l
  induction l with
  | nil => simp [List.dropWhile]
  | cons c t ih =>
    by_cases h : p c
    · simpa [List.dropWhile, h] using Nat.le_trans ih (Nat.le_succ _)
    · simp [List.dropWhile, h]

theorem multispace0_eq (s : List Char) : multispace0 s = .ok (s.dropWhile isWs) () := rfl

theorem multispace0_ok_length {s rest : List Char} {u : Unit}
    (h : multispace0 s = .ok rest u) : rest.length ≤ s.length := by
  cases h; exact dropWhile_length_le _ _

theorem charP_ok {c : Char} {s rest : List Char} {u : Unit}
    (h : charP c s = .ok rest u) : s = c :: rest := by
  cases s with
  | nil => exact absurd h (by simp [charP])
  | cons d t =>
    by_cases hd : d = c
    · simp only [charP, if_pos hd] at h; cases h; exact hd ▸ rfl
    · simp [charP, if_neg hd] at h

theorem charP_ok_length {c : Char} {s rest : List Char} {u : Unit}
    (h : charP c s = .ok rest u) : rest.length < s.length := by
  rw [charP_ok h]; simp

theorem tagP_ok {t s rest : List Char} {u : Unit}
    (h : tagP t s = .ok rest u) : t.isPrefixOf s ∧ rest = s.drop t.length := by
  by_cases hp : t.isPrefixOf s
  · simp only [tagP, if_pos hp] at h; cases h; exact ⟨hp, rfl⟩
  · simp [tagP, hp] at h

theorem tagP_ok_length {t s rest : List Char} {u : Unit}
    (h : tagP t s = .ok rest u) : rest.length ≤ s.length := by
  rcases tagP_ok h with ⟨-, rfl⟩
  simp

theorem tagP_ok_length_lt {t s rest : List Char} {u : Unit} (ht : t ≠ [])
    (h : tagP t s = .ok rest u) : rest.length < s.length := by
  rcases tagP_ok h with ⟨hp, rfl⟩
  have hle : t.length ≤ s.length :=
    ( List.isPrefixOf_iff_prefix.mp hp).length_le
  have ht' : 0 < t.length := List.length_pos.mpr ht
  simp only [List.length_drop]
  omega

theorem tagNoCaseP_ok {t s rest : List Char} {u : Unit}
    (h : tagNoCaseP t s = .ok rest u) : rest = s.drop t.length := by
  unfold tagNoCaseP at h
  split at h
  · cases h; rfl
  · exact absurd h (by simp)

theorem tagNoCaseP_ok_length {t s rest : List Char} {u : Unit}
    (h : tagNoCaseP t s = .ok rest u) : rest.length ≤ s.length := by
  rw [tagNoCaseP_ok h]; simp

/-! ## Remainder-length bounds for the `double` embedding -/

theorem expSignSplit_length (t : List Char) : (expSignSplit t).2.length ≤ t.length := by
  unfold expSignSplit
  split
  · split
    · simp
    · split <;> simp
  · simp

theorem expDigitsAfterSign_ok_length {sign mnum : ℤ} {mden : ℕ}
    {orig : List Char} {eneg : Bool} {t1 rest : List Char} {v : ℚ}
    (h : expDigitsAfterSign sign mnum mden orig eneg t1 = .ok rest v) :
    rest.length ≤ t1.length := by
  unfold expDigitsAfterSign at h
  split at h
  · exact absurd h (by simp)
  · cases h; exact dropWhile_length_le _ _

theorem expDigits_ok_length {sign mnum : ℤ} {mden : ℕ} {orig t rest : List Char} {v : ℚ}
    (h : expDigits sign mnum mden orig t = .ok rest v) : rest.length ≤ t.length := by
  unfold expDigits at h
  exact Nat.le_trans (expDigitsAfterSign_ok_length h) (expSignSplit_length t)

theorem expPart_ok_length {sign mnum : ℤ} {mden : ℕ} {orig s rest : List Char} {v : ℚ}
    (h : expPart sign mnum mden orig s = .ok rest v) : rest.length ≤ s.length := by
  unfold expPart at h
  split at h
  · split at h
    · exact Nat.le_trans (expDigits_ok_length h) (Nat.le_succ _)
    · cases h; exact Nat.le_refl _
  · cases h; exact Nat.le_refl _

theorem mantFrac_ok_length {sign : ℤ} {ds orig s2 rest : List Char} {v : ℚ}
    (h : mantFrac sign ds orig s2 = .ok rest v) : rest.length ≤ s2.length := by
  unfold mantFrac at h
  split at h
  · rename_i c s3
    split at h
    · have h1 := expPart_ok_length h
      have h2 : (s3.dropWhile isDigit).length ≤ s3.length := dropWhile_length_le _ _
      simp only [List.length_cons]
      omega
    · exact expPart_ok_length h
  · exact expPart_ok_length h

theorem mantDotOnly_ok_length {sign : ℤ} {orig s1 rest : List Char} {v : ℚ}
    (h : mantDotOnly sign orig s1 = .ok rest v) : rest.length ≤ s1.length := by
  unfold mantDotOnly at h
  split at h
  · rename_i c s3
    split at h
    · split at h
      · exact absurd h (by simp)
      · have h1 := expPart_ok_length h
        have h2 : (s3.dropWhile isDigit).length ≤ s3.length := dropWhile_length_le _ _
        simp only [List.length_cons]
        omega
    · exact absurd h (by simp)
  · exact absurd h (by simp)

theorem mantAfterSign_ok_length {sign : ℤ} {orig s1 rest : List Char} {v : ℚ}
    (h : mantAfterSign sign orig s1 = .ok rest v) : rest.length ≤ s1.length := by
  unfold mantAfterSign at h
  split at h
  · exact mantDotOnly_ok_length h
  · exact Nat.le_trans (mantFrac_ok_length h) (dropWhile_length_le _ _)

theorem recFloat_ok_length {s rest : List Char} {v : ℚ}
    (h : recFloat s = .ok rest v) : rest.length ≤ s.length := by
  unfold recFloat at h
  split at h
  · split at h
    · exact Nat.le_trans (mantAfterSign_ok_length h) (Nat.le_succ _)
    · split at h
      · exact Nat.le_trans (mantAfterSign_ok_length h) (Nat.le_succ _)
      · exact mantAfterSign_ok_length h
  · exact mantAfterSign_ok_length h

theorem doubleP_ok_length {s rest : List Char} {v : FVal}
    (h : doubleP s = .ok rest v) : rest.length ≤ s.length := by
  unfold doubleP at h
  split at h
  · rename_i heq; cases h; exact recFloat_ok_length heq
  · exact absurd h (by simp)
  · exact absurd h (by simp)
  · split at h
    · rename_i heq; cases h; exact tagNoCaseP_ok_length heq
    · split at h
      · rename_i heq; cases h; exact tagNoCaseP_ok_length heq
      · exact absurd h (by simp)

/-! ## Remainder-length bounds for the composite parsers -/

theorem comma_separator_ok_length {s rest : List Char} {u : Unit}
    (h : comma_separator s = .ok rest u) : rest.length < s.length := by
  unfold comma_separator at h
  obtain ⟨m1, a1, h1, h⟩ := pbind_ok h
  obtain ⟨m2, a2, h2, h⟩ := pbind_ok h
  obtain ⟨m3, a3, h3, h⟩ := pbind_ok h
  cases h
  have l1 := multispace0_ok_length h1
  have l2 := charP_ok_length h2
  have l3 := multispace0_ok_length h3
  omega

theorem semicolon_separator_ok_length {s rest : List Char} {u : Unit}
    (h : semicolon_separator s = .ok rest u) : rest.length < s.length := by
  unfold semicolon_separator at h
  obtain ⟨m1, a1, h1, h⟩ := pbind_ok h
  obtain ⟨m2, a2, h2, h⟩ := pbind_ok h
  obtain ⟨m3, a3, h3, h⟩ := pbind_ok h
  cases h
  have l1 := multispace0_ok_length h1
  have l2 := charP_ok_length h2
  have l3 := multispace0_ok_length h3
  omega

theorem float_pair_ok_length {s rest : List Char} {v : FVal × FVal}
    (h : float_pair s = .ok rest v) : rest.length ≤ s.length := by
  unfold float_pair at h
  obtain ⟨m1, a1, h1, h⟩ := pbind_ok h
  obtain ⟨m2, a2, h2, h⟩ := pbind_ok h
  obtain ⟨m3, a3, h3, h⟩ := pbind_ok h
  cases h
  have l1 := doubleP_ok_length h1
  have l2 := comma_separator_ok_length h2
  have l3 := doubleP_ok_length h3
  omega

theorem float_triple_ok_length {s rest : List Char} {v : FVal × FVal × FVal}
    (h : float_triple s = .ok rest v) : rest.length ≤ s.length := by
  unfold float_triple at h
  obtain ⟨m1, a1, h1, h⟩ := pbind_ok h
  obtain ⟨m2, a2, h2, h⟩ := pbind_ok h
  obtain ⟨m3, a3, h3, h⟩ := pbind_ok h
  obtain ⟨m4, a4, h4, h⟩ := pbind_ok h
  obtain ⟨m5, a5, h5, h⟩ := pbind_ok h
  cases h
  have l1 := doubleP_ok_length h1
  have l2 := comma_separator_ok_length h2
  have l3 := doubleP_ok_length h3
  have l4 := comma_separator_ok_length h4
  have l5 := doubleP_ok_length h5
  omega

theorem parenthesized_float_pair_ok_length {s rest : List Char} {v : FVal × FVal}
    (h : parenthesized_float_pair s = .ok rest v) : rest.length < s.length := by
  unfold parenthesized_float_pair at h
  obtain ⟨m1, a1, h1, h⟩ := pbind_ok h
  obtain ⟨m2, a2, h2, h⟩ := pbind_ok h
  obtain ⟨m3, a3, h3, h⟩ := pbind_ok h
  obtain ⟨m4, a4, h4, h⟩ := pbind_ok h
  obtain ⟨m5, a5, h5, h⟩ := pbind_ok h
  cases h
  have l1 := charP_ok_length h1
  have l2 := multispace0_ok_length h2
  have l3 := float_pair_ok_length h3
  have l4 := multispace0_ok_length h4
  have l5 := charP_ok_length h5
  omega

theorem parenthesized_float_triple_ok_length {s rest : List Char} {v : FVal × FVal × FVal}
    (h : parenthesized_float_triple s = .ok rest v) : rest.length < s.length := by
  unfold parenthesized_float_triple at h
  obtain ⟨m1, a1, h1, h⟩ := pbind_ok h
  obtain ⟨m2, a2, h2, h⟩ := pbind_ok h
  obtain ⟨m3, a3, h3, h⟩ := pbind_ok h
  obtain ⟨m4, a4, h4, h⟩ := pbind_ok h
  obtain ⟨m5, a5, h5, h⟩ := pbind_ok h
  cases h
  have l1 := charP_ok_length h1
  have l2 := multispace0_ok_length h2
  have l3 := float_triple_ok_length h3
  have l4 := multispace0_ok_length h4
  have l5 := charP_ok_length h5
  omega

theorem translation_expression_ok_length {s rest : List Char} {e : Expression}
    (h : translation_expression s = .ok rest e) : rest.length < s.length := by
  unfold translation_expression at h
  obtain ⟨m1, a1, h1, h⟩ := pbind_ok h
  obtain ⟨m2, a2, h2, h⟩ := pbind_ok h
  obtain ⟨m3, a3, h3, h⟩ := pbind_ok h
  cases h
  have l1 := tagP_ok_length h1
  have l2 := multispace0_ok_length h2
  have l3 := parenthesized_float_pair_ok_length h3
  omega

theorem rotation_expression_ok_length {s rest : List Char} {e : Expression}
    (h : rotation_expression s = .ok rest e) : rest.length < s.length := by
  unfold rotation_expression at h
  obtain ⟨m1, a1, h1, h⟩ := pbind_ok h
  obtain ⟨m2, a2, h2, h⟩ := pbind_ok h
  obtain ⟨m3, a3, h3, h⟩ := pbind_ok h
  cases h
  have l1 := tagP_ok_length h1
  have l2 := multispace0_ok_length h2
  have l3 := parenthesized_float_triple_ok_length h3
  omega

theorem iterate_expressionR_ok_length {rec : List Char → PRes Expression}
    {s rest : List Char} {e : Expression}
    (hrec : ∀ t r x, rec t = .ok r x → r.length ≤ t.length)
    (h : iterate_expressionR rec s = .ok rest e) : rest.length < s.length := by
  unfold iterate_expressionR at h
  obtain ⟨m1, a1, h1, h⟩ := pbind_ok h
  obtain ⟨m2, a2, h2, h⟩ := pbind_ok h
  obtain ⟨m3, a3, h3, h⟩ := pbind_ok h
  obtain ⟨m4, a4, h4, h⟩ := pbind_ok h
  obtain ⟨m5, a5, h5, h⟩ := pbind_ok h
  obtain ⟨m6, a6, h6, h⟩ := pbind_ok h
  obtain ⟨m7, a7, h7, h⟩ := pbind_ok h
  cases h
  have l1 := tagP_ok_length_lt (t := "iter".toList) (by simp) h1
  have l2 := multispace0_ok_length h2
  have l3 := charP_ok_length h3
  have l4 := multispace0_ok_length h4
  have l5 := hrec _ _ _ h5
  have l6 := multispace0_ok_length h6
  have l7 := charP_ok_length h7
  omega

theorem eitheror_leafR_ok_length {rec : List Char → PRes Expression}
    {s rest : List Char} {e : Expression}
    (hrec : ∀ t r x, rec t = .ok r x → r.length ≤ t.length)
    (h : eitheror_leafR rec s = .ok rest e) : rest.length < s.length := by
  unfold eitheror_leafR at h
  obtain ⟨m1, a1, h1, h⟩ := pbind_ok h
  obtain ⟨m2, a2, h2, h⟩ := pbind_ok h
  obtain ⟨m3, a3, h3, h⟩ := pbind_ok h
  obtain ⟨m4, a4, h4, h⟩ := pbind_ok h
  obtain ⟨m5, a5, h5, h⟩ := pbind_ok h
  cases h
  have l1 := charP_ok_length h1
  have l2 := multispace0_ok_length h2
  have l3 := hrec _ _ _ h3
  have l4 := multispace0_ok_length h4
  have l5 := charP_ok_length h5
  omega

theorem eitheror_expressionR_ok_length {rec : List Char → PRes Expression}
    {s rest : List Char} {e : Expression}
    (hrec : ∀ t r x, rec t = .ok r x → r.length ≤ t.length)
    (h : eitheror_expressionR rec s = .ok rest e) : rest.length < s.length := by
  unfold eitheror_expressionR at h
  obtain ⟨m1, a1, h1, h⟩ := pbind_ok h
  obtain ⟨m2, a2, h2, h⟩ := pbind_ok h
  obtain ⟨m3, a3, h3, h⟩ := pbind_ok h
  obtain ⟨m4, a4, h4, h⟩ := pbind_ok h
  obtain ⟨m5, a5, h5, h⟩ := pbind_ok h
  cases h
  have l1 := eitheror_leafR_ok_length hrec h1
  have l2 := multispace0_ok_length h2
  have l3 := tagP_ok_length h3
  have l4 := multispace0_ok_length h4
  have l5 := eitheror_leafR_ok_length hrec h5
  omega

theorem altList_ok_mem {α : Type} :
    ∀ (ps : List (List Char → PRes α)) (s rest : List Char) (v : α),
      altList ps s = .ok rest v → ∃ p, p ∈ ps ∧ p s = .ok rest v := by
  intro ps
  induction ps with
  | nil => intro s rest v h; exact absurd h (by simp [altList])
  | cons p qs ih =>
    intro s rest v h
    cases qs with
    | nil => exact ⟨p, List.mem_singleton.mpr rfl, h⟩
    | cons q t =>
      unfold altList at h
      split at h
      · rcases ih _ _ _ h with ⟨p', hp', he⟩
        exact ⟨p', List.mem_cons_of_mem _ hp', he⟩
      · exact ⟨p, List.mem_cons_self _ _, h⟩

theorem atom_ok_length {rec : List Char → PRes Expression}
    {s rest : List Char} {e : Expression}
    (hrec : ∀ t r x, rec t = .ok r x → r.length ≤ t.length)
    (h : altList (atom_alternatives rec) s = .ok rest e) : rest.length < s.length := by
  rcases altList_ok_mem _ _ _ _ h with ⟨p, hp, he⟩
  simp only [atom_alternatives, List.mem_cons, List.not_mem_nil, or_false] at hp
  rcases hp with rfl | rfl | rfl | rfl
  · exact translation_expression_ok_length he
  · exact rotation_expression_ok_length he
  · exact iterate_expressionR_ok_length hrec he
  · exact eitheror_expressionR_ok_length hrec he

theorem chain_continue_ok_length {rec : List Char → PRes Expression}
    {expr : Expression} {t rest : List Char} {e : Expression}
    (hrec : ∀ t r x, rec t = .ok r x → r.length ≤ t.length)
    (h : chain_continue rec expr t = .ok rest e) : rest.length ≤ t.length := by
  unfold chain_continue at h
  split at h
  · rename_i trailing additional hrec2
    cases h
    exact hrec _ _ _ hrec2
  · exact hrec _ _ _ h

theorem chain_check_ok_length {rec : List Char → PRes Expression}
    {rem rest : List Char} {expr e : Expression}
    (hrec : ∀ t r x, rec t = .ok r x → r.length ≤ t.length)
    (h : chain_check rec rem expr = .ok rest e) : rest.length ≤ rem.length := by
  unfold chain_check at h
  split at h
  · rename_i s2 u hsemi
    have lsemi := semicolon_separator_ok_length hsemi
    have l := chain_continue_ok_length hrec h
    omega
  · split at h
    · cases h; exact Nat.le_refl _
    · exact absurd h (by simp)
  · exact absurd h (by simp)
  · exact absurd h (by simp)

theorem expression_body_ok_length {rec : List Char → PRes Expression}
    {s rest : List Char} {e : Expression}
    (hrec : ∀ t r x, rec t = .ok r x → r.length ≤ t.length)
    (h : expression_body rec s = .ok rest e) : rest.length ≤ s.length := by
  unfold expression_body at h
  split at h
  · rename_i rem expr halt
    have lalt := atom_ok_length hrec halt
    have l := chain_check_ok_length hrec h
    omega
  · rename_i hne
    have := atom_ok_length hrec h
    omega

theorem expressionF_ok_length :
    ∀ (n : ℕ) {s rest : List Char} {e : Expression},
      expressionF n s = .ok rest e → rest.length ≤ s.length := by
  intro n
  induction n with
  | zero => intro s rest e h; exact absurd h (by simp [expressionF])
  | succ n ih =>
    intro s rest e h
    exact expression_body_ok_length (fun t r x hx => ih hx) h

theorem expression_ok_length {s rest : List Char} {e : Expression}
    (h : expression s = .ok rest e) : rest.length ≤ s.length :=
  expressionF_ok_length _ h

/-! ## No parser returns the out-of-fuel marker (given sufficient fuel) -/

theorem multispace0_ne_bottom (s : List Char) : multispace0 s ≠ .bottom := by
  simp [multispace0]

theorem charP_ne_bottom (c : Char) (s : List Char) : charP c s ≠ .bottom := by
  unfold charP
  split
  · split <;> simp
  · simp

theorem tagP_ne_bottom (t s : List Char) : tagP t s ≠ .bottom := by
  unfold tagP
  split <;> simp

theorem tagNoCaseP_ne_bottom (t s : List Char) : tagNoCaseP t s ≠ .bottom := by
  unfold tagNoCaseP
  split <;> simp

theorem expDigitsAfterSign_ne_bottom (sign mnum : ℤ) (mden : ℕ) (orig : List Char)
    (eneg : Bool) (t1 : List Char) : expDigitsAfterSign sign mnum mden orig eneg t1 ≠ .bottom := by
  unfold expDigitsAfterSign
  split <;> simp

theorem expDigits_ne_bottom (sign mnum : ℤ) (mden : ℕ) (orig t : List Char) :
    expDigits sign mnum mden orig t ≠ .bottom := by
  unfold expDigits
  exact expDigitsAfterSign_ne_bottom _ _ _ _ _ _

theorem expPart_ne_bottom (sign mnum : ℤ) (mden : ℕ) (orig s : List Char) :
    expPart sign mnum mden orig s ≠ .bottom := by
  unfold expPart
  split
  · split
    · exact expDigits_ne_bottom _ _ _ _ _
    · simp
  · simp

theorem mantFrac_ne_bottom (sign : ℤ) (ds orig s2 : List Char) :
    mantFrac sign ds orig s2 ≠ .bottom := by
  unfold mantFrac
  split
  · split
    · exact expPart_ne_bottom _ _ _ _ _
    · exact expPart_ne_bottom _ _ _ _ _
  · exact expPart_ne_bottom _ _ _ _ _

theorem mantDotOnly_ne_bottom (sign : ℤ) (orig s1 : List Char) :
    mantDotOnly sign orig s1 ≠ .bottom := by
  unfold mantDotOnly
  split
  · split
    · split
      · simp
      · exact expPart_ne_bottom _ _ _ _ _
    · simp
  · simp

theorem mantAfterSign_ne_bottom (sign : ℤ) (orig s1 : List Char) :
    mantAfterSign sign orig s1 ≠ .bottom := by
  unfold mantAfterSign
  split
  · exact mantDotOnly_ne_bottom _ _ _
  · exact mantFrac_ne_bottom _ _ _ _

theorem recFloat_ne_bottom (s : List Char) : recFloat s ≠ .bottom := by
  unfold recFloat
  split
  · split
    · exact mantAfterSign_ne_bottom _ _ _
    · split <;> exact mantAfterSign_ne_bottom _ _ _
  · exact mantAfterSign_ne_bottom _ _ _

theorem doubleP_ne_bottom (s : List Char) : doubleP s ≠ .bottom := by
  intro h
  unfold doubleP at h
  split at h
  · simp at h
  · simp at h
  · rename_i heq
    exact recFloat_ne_bottom _ heq
  · split at h
    · simp at h
    · split at h
      · simp at h
      · simp at h

theorem comma_separator_ne_bottom (s : List Char) : comma_separator s ≠ .bottom := by
  intro h
  unfold comma_separator at h
  rcases pbind_bottom h with h | ⟨m1, a1, h1, h⟩
  · exact multispace0_ne_bottom _ h
  rcases pbind_bottom h with h | ⟨m2, a2, h2, h⟩
  · exact charP_ne_bottom _ _ h
  rcases pbind_bottom h with h | ⟨m3, a3, h3, h⟩
  · exact multispace0_ne_bottom _ h
  · simp at h

theorem semicolon_separator_ne_bottom (s : List Char) : semicolon_separator s ≠ .bottom := by
  intro h
  unfold semicolon_separator at h
  rcases pbind_bottom h with h | ⟨m1, a1, h1, h⟩
  · exact multispace0_ne_bottom _ h
  rcases pbind_bottom h with h | ⟨m2, a2, h2, h⟩
  · exact charP_ne_bottom _ _ h
  rcases pbind_bottom h with h | ⟨m3, a3, h3, h⟩
  · exact multispace0_ne_bottom _ h
  · simp at h

theorem float_pair_ne_bottom (s : List Char) : float_pair s ≠ .bottom := by
  intro h
  unfold float_pair at h
  rcases pbind_bottom h with h | ⟨m1, a1, h1, h⟩
  · exact doubleP_ne_bottom _ h
  rcases pbind_bottom h with h | ⟨m2, a2, h2, h⟩
  · exact comma_separator_ne_bottom _ h
  rcases pbind_bottom h with h | ⟨m3, a3, h3, h⟩
  · exact doubleP_ne_bottom _ h
  · simp at h

theorem float_triple_ne_bottom (s : List Char) : float_triple s ≠ .bottom := by
  intro h
  unfold float_triple at h
  rcases pbind_bottom h with h | ⟨m1, a1, h1, h⟩
  · exact doubleP_ne_bottom _ h
  rcases pbind_bottom h with h | ⟨m2, a2, h2, h⟩
  · exact comma_separator_ne_bottom _ h
  rcases pbind_bottom h with h | ⟨m3, a3, h3, h⟩
  · exact doubleP_ne_bottom _ h
  rcases pbind_bottom h with h | ⟨m4, a4, h4, h⟩
  · exact comma_separator_ne_bottom _ h
  rcases pbind_bottom h with h | ⟨m5, a5, h5, h⟩
  · exact doubleP_ne_bottom _ h
  · simp at h

theorem parenthesized_float_pair_ne_bottom (s : List Char) :
    parenthesized_float_pair s ≠ .bottom := by
  intro h
  unfold parenthesized_float_pair at h
  rcases pbind_bottom h with h | ⟨m1, a1, h1, h⟩
  · exact charP_ne_bottom _ _ h
  rcases pbind_bottom h with h | ⟨m2, a2, h2, h⟩
  · exact multispace0_ne_bottom _ h
  rcases pbind_bottom h with h | ⟨m3, a3, h3, h⟩
  · exact float_pair_ne_bottom _ h
  rcases pbind_bottom h with h | ⟨m4, a4, h4, h⟩
  · exact multispace0_ne_bottom _ h
  rcases pbind_bottom h with h | ⟨m5, a5, h5, h⟩
  · exact charP_ne_bottom _ _ h
  · simp at h

theorem parenthesized_float_triple_ne_bottom (s : List Char) :
    parenthesized_float_triple s ≠ .bottom := by
  intro h
  unfold parenthesized_float_triple at h
  rcases pbind_bottom h with h | ⟨m1, a1, h1, h⟩
  · exact charP_ne_bottom _ _ h
  rcases pbind_bottom h with h | ⟨m2, a2, h2, h⟩
  · exact multispace0_ne_bottom _ h
  rcases pbind_bottom h with h | ⟨m3, a3, h3, h⟩
  · exact float_triple_ne_bottom _ h
  rcases pbind_bottom h with h | ⟨m4, a4, h4, h⟩
  · exact multispace0_ne_bottom _ h
  rcases pbind_bottom h with h | ⟨m5, a5, h5, h⟩
  · exact charP_ne_bottom _ _ h
  · simp at h

theorem translation_expression_ne_bottom (s : List Char) :
    translation_expression s ≠ .bottom := by
  intro h
  unfold translation_expression at h
  rcases pbind_bottom h with h | ⟨m1, a1, h1, h⟩
  · exact tagP_ne_bottom _ _ h
  rcases pbind_bottom h with h | ⟨m2, a2, h2, h⟩
  · exact multispace0_ne_bottom _ h
  rcases pbind_bottom h with h | ⟨m3, a3, h3, h⟩
  · exact parenthesized_float_pair_ne_bottom _ h
  · simp at h

theorem rotation_expression_ne_bottom (s : List Char) :
    rotation_expression s ≠ .bottom := by
  intro h
  unfold rotation_expression at h
  rcases pbind_bottom h with h | ⟨m1, a1, h1, h⟩
  · exact tagP_ne_bottom _ _ h
  rcases pbind_bottom h with h | ⟨m2, a2, h2, h⟩
  · exact multispace0_ne_bottom _ h
  rcases pbind_bottom h with h | ⟨m3, a3, h3, h⟩
  · exact parenthesized_float_triple_ne_bottom _ h
  · simp at h

theorem iterate_expressionR_ne_bottom {rec : List Char → PRes Expression} {s : List Char}
    (hrec : ∀ t, t.length < s.length → rec t ≠ .bottom) :
    iterate_expressionR rec s ≠ .bottom := by
  intro h
  unfold iterate_expressionR at h
  rcases pbind_bottom h with h | ⟨m1, a1, h1, h⟩
  · exact tagP_ne_bottom _ _ h
  rcases pbind_bottom h with h | ⟨m2, a2, h2, h⟩
  · exact multispace0_ne_bottom _ h
  rcases pbind_bottom h with h | ⟨m3, a3, h3, h⟩
  · exact charP_ne_bottom _ _ h
  rcases pbind_bottom h with h | ⟨m4, a4, h4, h⟩
  · exact multispace0_ne_bottom _ h
  rcases pbind_bottom h with h | ⟨m5, a5, h5, h⟩
  · have l1 := tagP_ok_length_lt (t := "iter".toList) (by simp) h1
    have l2 := multispace0_ok_length h2
    have l3 := charP_ok_length h3
    have l4 := multispace0_ok_length h4
    exact hrec m4 (by omega) h
  rcases pbind_bottom h with h | ⟨m6, a6, h6, h⟩
  · exact multispace0_ne_bottom _ h
  rcases pbind_bottom h with h | ⟨m7, a7, h7, h⟩
  · exact charP_ne_bottom _ _ h
  · simp at h

theorem eitheror_leafR_ne_bottom {rec : List Char → PRes Expression} {s : List Char}
    (hrec : ∀ t, t.length < s.length → rec t ≠ .bottom) :
    eitheror_leafR rec s ≠ .bottom := by
  intro h
  unfold eitheror_leafR at h
  rcases pbind_bottom h with h | ⟨m1, a1, h1, h⟩
  · exact charP_ne_bottom _ _ h
  rcases pbind_bottom h with h | ⟨m2, a2, h2, h⟩
  · exact multispace0_ne_bottom _ h
  rcases pbind_bottom h with h | ⟨m3, a3, h3, h⟩
  · have l1 := charP_ok_length h1
    have l2 := multispace0_ok_length h2
    exact hrec m2 (by omega) h
  rcases pbind_bottom h with h | ⟨m4, a4, h4, h⟩
  · exact multispace0_ne_bottom _ h
  rcases pbind_bottom h with h | ⟨m5, a5, h5, h⟩
  · exact charP_ne_bottom _ _ h
  · simp at h

theorem eitheror_expressionR_ne_bottom {rec : List Char → PRes Expression} {s : List Char}
    (hreclen : ∀ t r x, rec t = .ok r x → r.length ≤ t.length)
    (hrec : ∀ t, t.length < s.length → rec t ≠ .bottom) :
    eitheror_expressionR rec s ≠ .bottom := by
  intro h
  unfold eitheror_expressionR at h
  rcases pbind_bottom h with h | ⟨m1, a1, h1, h⟩
  · exact eitheror_leafR_ne_bottom hrec h
  rcases pbind_bottom h with h | ⟨m2, a2, h2, h⟩
  · exact multispace0_ne_bottom _ h
  rcases pbind_bottom h with h | ⟨m3, a3, h3, h⟩
  · exact tagP_ne_bottom _ _ h
  rcases pbind_bottom h with h | ⟨m4, a4, h4, h⟩
  · exact multispace0_ne_bottom _ h
  rcases pbind_bottom h with h | ⟨m5, a5, h5, h⟩
  · have l1 := eitheror_leafR_ok_length hreclen h1
    have l2 := multispace0_ok_length h2
    have l3 := tagP_ok_length h3
    have l4 := multispace0_ok_length h4
    refine eitheror_leafR_ne_bottom (fun t ht => hrec t ?_) h
    omega
  · simp at h

theorem altList_atoms_ne_bottom {rec : List Char → PRes Expression} {s : List Char}
    (hreclen : ∀ t r x, rec t = .ok r x → r.length ≤ t.length)
    (hrec : ∀ t, t.length < s.length → rec t ≠ .bottom) :
    altList (atom_alternatives rec) s ≠ .bottom := by
  intro h
  unfold atom_alternatives altList at h
  split at h
  · unfold altList at h
    split at h
    · unfold altList at h
      split at h
      · exact eitheror_expressionR_ne_bottom hreclen hrec h
      · exact iterate_expressionR_ne_bottom hrec h
    · exact rotation_expression_ne_bottom _ h
  · exact translation_expression_ne_bottom _ h

theorem chain_continue_ne_bottom {rec : List Char → PRes Expression}
    {expr : Expression} {t : List Char} (hrec : rec t ≠ .bottom) :
    chain_continue rec expr t ≠ .bottom := by
  intro h
  unfold chain_continue at h
  split at h
  · simp at h
  · exact hrec h

theorem chain_check_ne_bottom {rec : List Char → PRes Expression}
    {rem : List Char} {expr : Expression}
    (hrec : ∀ t, t.length < rem.length → rec t ≠ .bottom) :
    chain_check rec rem expr ≠ .bottom := by
  intro h
  unfold chain_check at h
  split at h
  · rename_i s2 u hsemi
    have lsemi := semicolon_separator_ok_length hsemi
    exact chain_continue_ne_bottom (hrec s2 (by omega)) h
  · split at h <;> simp at h
  · simp at h
  · rename_i hsemi
    exact semicolon_separator_ne_bottom _ hsemi

theorem expression_body_ne_bottom {rec : List Char → PRes Expression} {s : List Char}
    (hreclen : ∀ t r x, rec t = .ok r x → r.length ≤ t.length)
    (hrec : ∀ t, t.length < s.length → rec t ≠ .bottom) :
    expression_body rec s ≠ .bottom := by
  intro h
  unfold expression_body at h
  split at h
  · rename_i rem expr halt
    have lalt := atom_ok_length hreclen halt
    exact chain_check_ne_bottom (fun t ht => hrec t (by omega)) h
  · exact altList_atoms_ne_bottom hreclen hrec h

theorem expressionF_ne_bottom :
    ∀ (k n : ℕ) (s : List Char), s.length ≤ k → s.length < n →
      expressionF n s ≠ .bottom := by
  intro k
  induction k with
  | zero =>
    intro n s hk hn
    cases n with
    | zero => omega
    | succ n =>
      show expression_body (expressionF n) s ≠ .bottom
      exact expression_body_ne_bottom (fun t r x hx => expressionF_ok_length _ hx)
        (fun t ht => absurd ht (by omega))
  | succ k ih =>
    intro n s hk hn
    cases n with
    | zero => omega
    | succ n =>
      show expression_body (expressionF n) s ≠ .bottom
      refine expression_body_ne_bottom (fun t r x hx => expressionF_ok_length _ hx)
        (fun t ht => ih n t (by omega) (by omega))

/-- The top-level parser never runs out of fuel: the default fuel
`text.length + 1` always suffices. -/
theorem expression_ne_bottom (s : List Char) : expression s ≠ .bottom :=
  expressionF_ne_bottom s.length (s.length + 1) s (Nat.le_refl _) (Nat.lt_succ_self _)

/-! ## Fuel irrelevance: the fuelled embedding is stable once the fuel exceeds
the input length, so `expression` satisfies the recursive equation of the Rust
source (`expression_unfold`). -/

theorem pbind_congr {α β : Type} {r : PRes α} {f g : List Char → α → PRes β}
    (h : ∀ m a, r = .ok m a → f m a = g m a) : pbind r f = pbind r g := by
  cases r with
  | ok m a => exact h m a rfl
  | err e => rfl
  | fail e => rfl
  | bottom => rfl

theorem altList_cons_eq {α : Type} (p q : List Char → PRes α)
    (t : List (List Char → PRes α)) (s : List Char) :
    altList (p :: q :: t) s =
      match p s with
      | .err _ => altList (q :: t) s
      | r => r := rfl

theorem altList_singleton_eq {α : Type} (p : List Char → PRes α) (s : List Char) :
    altList [p] s = p s := rfl

theorem altList_cons_congr {α : Type} (p q1 q2 : List Char → PRes α)
    (t1 t2 : List (List Char → PRes α)) (s : List Char)
    (h : altList (q1 :: t1) s = altList (q2 :: t2) s) :
    altList (p :: q1 :: t1) s = altList (p :: q2 :: t2) s := by
  rw [altList_cons_eq p q1 t1 s, altList_cons_eq p q2 t2 s]
  cases p s
  case err e => exact h
  all_goals rfl

theorem iterate_expressionR_cong {rec1 rec2 : List Char → PRes Expression} {s : List Char}
    (h : ∀ t, t.length < s.length → rec1 t = rec2 t) :
    iterate_expressionR rec1 s = iterate_expressionR rec2 s := by
  unfold iterate_expressionR
  refine pbind_congr fun m1 a1 h1 => ?_
  refine pbind_congr fun m2 a2 h2 => ?_
  refine pbind_congr fun m3 a3 h3 => ?_
  refine pbind_congr fun m4 a4 h4 => ?_
  have hb : m4.length < s.length := by
    have l1 := tagP_ok_length_lt (t := "iter".toList) (by simp) h1
    have l2 := multispace0_ok_length h2
    have l3 := charP_ok_length h3
    have l4 := multispace0_ok_length h4
    omega
  rw [h m4 hb]

theorem eitheror_leafR_cong {rec1 rec2 : List Char → PRes Expression} {s : List Char}
    (h : ∀ t, t.length < s.length → rec1 t = rec2 t) :
    eitheror_leafR rec1 s = eitheror_leafR rec2 s := by
  unfold eitheror_leafR
  refine pbind_congr fun m1 a1 h1 => ?_
  refine pbind_congr fun m2 a2 h2 => ?_
  have hb : m2.length < s.length := by
    have l1 := charP_ok_length h1
    have l2 := multispace0_ok_length h2
    omega
  rw [h m2 hb]

theorem eitheror_expressionR_cong {rec1 rec2 : List Char → PRes Expression} {s : List Char}
    (hreclen : ∀ t r x, rec2 t = .ok r x → r.length ≤ t.length)
    (h : ∀ t, t.length < s.length → rec1 t = rec2 t) :
    eitheror_expressionR rec1 s = eitheror_expressionR rec2 s := by
  unfold eitheror_expressionR
  rw [eitheror_leafR_cong h]
  refine pbind_congr fun m1 a1 h1 => ?_
  refine pbind_congr fun m2 a2 h2 => ?_
  refine pbind_congr fun m3 a3 h3 => ?_
  refine pbind_congr fun m4 a4 h4 => ?_
  have l1 := eitheror_leafR_ok_length hreclen h1
  have l2 := multispace0_ok_length h2
  have l3 := tagP_ok_length h3
  have l4 := multispace0_ok_length h4
  rw [eitheror_leafR_cong (s := m4) fun t ht => h t (by omega)]

theorem atom_alternatives_cong {rec1 rec2 : List Char → PRes Expression} {s : List Char}
    (hi : iterate_expressionR rec1 s = iterate_expressionR rec2 s)
    (he : eitheror_expressionR rec1 s = eitheror_expressionR rec2 s) :
    altList (atom_alternatives rec1) s = altList (atom_alternatives rec2) s := by
  unfold atom_alternatives
  refine altList_cons_congr _ _ _ _ _ _ (altList_cons_congr _ _ _ _ _ _ ?_)
  rw [altList_cons_eq, altList_cons_eq, altList_singleton_eq, altList_singleton_eq, hi, he]

theorem chain_check_cong {rec1 rec2 : List Char → PRes Expression}
    {rem : List Char} {expr : Expression}
    (h : ∀ t, t.length < rem.length → rec1 t = rec2 t) :
    chain_check rec1 rem expr = chain_check rec2 rem expr := by
  unfold chain_check
  cases hsemi : semicolon_separator rem with
  | ok s2 u =>
    have hs2 : s2.length < rem.length := semicolon_separator_ok_length hsemi
    show chain_continue rec1 expr s2 = chain_continue rec2 expr s2
    unfold chain_continue
    rw [h s2 hs2]
  | err e => rfl
  | fail e => rfl
  | bottom => rfl

theorem expression_body_cong {rec1 rec2 : List Char → PRes Expression} {s : List Char}
    (hreclen : ∀ t r x, rec2 t = .ok r x → r.length ≤ t.length)
    (h : ∀ t, t.length < s.length → rec1 t = rec2 t) :
    expression_body rec1 s = expression_body rec2 s := by
  unfold expression_body
  rw [atom_alternatives_cong (iterate_expressionR_cong h) (eitheror_expressionR_cong hreclen h)]
  cases halt : altList (atom_alternatives rec2) s with
  | ok rem expr =>
    have lalt := atom_ok_length hreclen halt
    exact chain_check_cong fun t ht => h t (by omega)
  | err e => rfl
  | fail e => rfl
  | bottom => rfl

theorem expressionF_irrel :
    ∀ (k : ℕ) (s : List Char), s.length ≤ k → ∀ (m n : ℕ), s.length < m → s.length < n →
      expressionF m s = expressionF n s := by
  intro k
  induction k with
  | zero =>
    intro s hk m n hm hn
    cases m with
    | zero => omega
    | succ m =>
      cases n with
      | zero => omega
      | succ n =>
        show expression_body (expressionF m) s = expression_body (expressionF n) s
        exact expression_body_cong (fun t r x hx => expressionF_ok_length _ hx)
          (fun t ht => absurd ht (by omega))
  | succ k ih =>
    intro s hk m n hm hn
    cases m with
    | zero => omega
    | succ m =>
      cases n with
      | zero => omega
      | succ n =>
        show expression_body (expressionF m) s = expression_body (expressionF n) s
        exact expression_body_cong (fun t r x hx => expressionF_ok_length _ hx)
          (fun t ht => ih t (by omega) m n (by omega) (by omega))

theorem expressionF_eq_expression {n : ℕ} {s : List Char} (hn : s.length < n) :
    expressionF n s = expression s :=
  expressionF_irrel s.length s (Nat.le_refl _) n (s.length + 1) hn (Nat.lt_succ_self _)

/-- `expression` satisfies the recursive equation of its Rust source: one atom
by alternation, then the chaining check, with `expression` itself as the
recursive call. -/
theorem expression_unfold (s : List Char) :
    expression s = expression_body expression s := by
  show expression_body (expressionF s.length) s = expression_body expression s
  exact expression_body_cong (fun t r x hx => expression_ok_length hx)
    (fun t ht => expressionF_eq_expression (by omega))

/-! ## Token-level evaluation lemmas -/

theorem takeWhile_append_all {p : Char → Bool} :
    ∀ (l r : List Char), l.all p = true → (∀ c, r.head? = some c → p c = false) →
      (l ++ r).takeWhile p = l := by
  intro l
  induction l with
  | nil =>
    intro r _ hr
    cases r with
    | nil => rfl
    | cons c t => simp [List.takeWhile_cons, hr c rfl]
  | cons d l ih =>
    intro r hl hr
    simp only [List.all_cons, Bool.and_eq_true] at hl
    simp [List.takeWhile_cons, hl.1, ih r hl.2 hr]

theorem dropWhile_append_all {p : Char → Bool} :
    ∀ (l r : List Char), l.all p = true → (∀ c, r.head? = some c → p c = false) →
      (l ++ r).dropWhile p = r := by
  intro l
  induction l with
  | nil =>
    intro r _ hr
    cases r with
    | nil => rfl
    | cons c t => simp [List.dropWhile_cons, hr c rfl]
  | cons d l ih =>
    intro r hl hr
    simp only [List.all_cons, Bool.and_eq_true] at hl
    simp [List.dropWhile_cons, hl.1, ih r hl.2 hr]

theorem dropWhile_cons_neg {p : Char → Bool} {c : Char} (t : List Char) (h : p c = false) :
    (c :: t).dropWhile p = c :: t := by
  simp [List.dropWhile_cons, h]

theorem tagP_append (t r : List Char) : tagP t (t ++ r) = .ok r () := by
  have hp : t.isPrefixOf (t ++ r) = true :=
    List.isPrefixOf_iff_prefix.mpr ( List.prefix_append t r)
  simp [tagP, hp]

theorem charP_cons (c : Char) (r : List Char) : charP c (c :: r) = .ok r () := by
  simp [charP]

theorem tagP_err_head {a b : Char} (t s : List Char) (h : b ≠ a) :
    tagP (a :: t) (b :: s) = .err ⟨b :: s, .tag⟩ := by
  have hp : (a :: t).isPrefixOf (b :: s) = false := by
    simp [List.isPrefixOf, Ne.symm h]
  simp [tagP, hp]

theorem charP_err_head {c d : Char} (s : List Char) (h : d ≠ c) :
    charP c (d :: s) = .err ⟨d :: s, .char⟩ := by
  simp [charP, h]

theorem semicolon_separator_err_of {s : List Char}
    (h : startsWithChar (s.dropWhile isWs) ';' = false) :
    semicolon_separator s = .err ⟨s.dropWhile isWs, .char⟩ := by
  unfold semicolon_separator
  rw [pbind_ok_arg _ (multispace0_eq s)]
  revert h
  cases hd : s.dropWhile isWs with
  | nil => intro h; rfl
  | cons d t =>
    intro h
    have hdc : d ≠ ';' := by simpa [startsWithChar] using h
    simp [charP, hdc, pbind]

theorem semicolon_separator_ok_of {s t : List Char}
    (h : s.dropWhile isWs = ';' :: t) :
    semicolon_separator s = .ok (t.dropWhile isWs) () := by
  unfold semicolon_separator
  rw [pbind_ok_arg _ (multispace0_eq s), h]
  simp [charP, pbind, multispace0]

theorem semicolon_separator_err_input {s : List Char} {e : PError}
    (h : semicolon_separator s = .err e) : e = ⟨s.dropWhile isWs, .char⟩ := by
  revert h
  unfold semicolon_separator
  rw [pbind_ok_arg _ (multispace0_eq s)]
  cases hd : s.dropWhile isWs with
  | nil =>
    intro h
    simp [charP, pbind] at h
    simp [h]
  | cons d t =>
    intro h
    by_cases hdc : d = ';'
    · subst hdc
      simp [charP, pbind, multispace0] at h
    · simp [charP, hdc, pbind] at h
      simp [h]

/-! ## Float-literal rendering: `double` consumes exactly the rendered token -/

theorem isWs_not_special {c : Char} (h : isWs c = true) :
    isDigit c = false ∧ c ≠ '.' ∧ c ≠ 'e' ∧ c ≠ 'E' := by
  have h4 : ((c = ' ' ∨ c = '\t') ∨ c = '\r') ∨ c = '\n' := by simpa [isWs] using h
  rcases h4 with ((rfl | rfl) | rfl) | rfl <;>
    refine ⟨by decide, by decide, by decide, by decide⟩

theorem floatStop_ws_cons {w : List Char} (hw : allWs w = true) {c : Char} (x : List Char)
    (hc : isDigit c = false ∧ c ≠ '.' ∧ c ≠ 'e' ∧ c ≠ 'E') :
    floatStop (w ++ c :: x) := by
  intro d hd
  cases w with
  | nil =>
    simp at hd
    exact hd ▸ hc
  | cons e t =>
    simp at hd
    subst hd
    have he : isWs e = true := by
      simp [allWs, List.all_cons] at hw
      exact hw.1
    exact isWs_not_special he

theorem expSignSplit_not {t : List Char}
    (h : ∀ c, t.head? = some c → c ≠ '+' ∧ c ≠ '-') : expSignSplit t = (false, t) := by
  unfold expSignSplit
  split
  · rename_i c u
    rw [if_neg (h c rfl).1, if_neg (h c rfl).2]
  · rfl

theorem expDigitsAfterSign_render (sign mnum : ℤ) (mden : ℕ) (orig : List Char)
    (eneg : Bool) {eds : List Char} (hne : eds ≠ []) (hall : eds.all isDigit = true)
    {rest : List Char} (hstop : ∀ c, rest.head? = some c → isDigit c = false) :
    expDigitsAfterSign sign mnum mden orig eneg (eds ++ rest) =
      .ok rest (litValExp sign mnum mden eneg (digitsVal eds)) := by
  have ht : (eds ++ rest).takeWhile isDigit = eds := takeWhile_append_all _ _ hall hstop
  have hd : (eds ++ rest).dropWhile isDigit = rest := dropWhile_append_all _ _ hall hstop
  unfold expDigitsAfterSign
  rw [ht, hd, if_neg hne]

theorem digit_head_not_sign {eds : List Char} (hne : eds ≠ []) (hall : eds.all isDigit = true) :
    ∀ c, (eds).head? = some c → c ≠ '+' ∧ c ≠ '-' := by
  intro c hc
  cases eds with
  | nil => exact absurd rfl hne
  | cons d t =>
    simp at hc
    subst hc
    simp [List.all_cons] at hall
    have hd := hall.1
    constructor <;> rintro rfl <;> exact absurd hd (by decide)

theorem expDigits_render (sign mnum : ℤ) (mden : ℕ) (orig : List Char) (es : Sgn)
    {eds : List Char} (hne : eds ≠ []) (hall : eds.all isDigit = true)
    {rest : List Char} (hstop : ∀ c, rest.head? = some c → isDigit c = false) :
    expDigits sign mnum mden orig (es.render ++ (eds ++ rest)) =
      .ok rest (litValExp sign mnum mden es.isNeg (digitsVal eds)) := by
  cases es with
  | sNone =>
    have hs : expSignSplit (Sgn.render .sNone ++ (eds ++ rest)) = (false, eds ++ rest) := by
      rw [show Sgn.render .sNone ++ (eds ++ rest) = eds ++ rest from rfl]
      refine expSignSplit_not ?_
      intro c hc
      cases eds with
      | nil => exact absurd rfl hne
      | cons d t => exact digit_head_not_sign hne hall c (by simpa using hc)
    unfold expDigits
    rw [hs]
    exact expDigitsAfterSign_render sign mnum mden orig false hne hall hstop
  | sPlus =>
    have hs : expSignSplit (Sgn.render .sPlus ++ (eds ++ rest)) = (false, eds ++ rest) := rfl
    unfold expDigits
    rw [hs]
    exact expDigitsAfterSign_render sign mnum mden orig false hne hall hstop
  | sMinus =>
    have hs : expSignSplit (Sgn.render .sMinus ++ (eds ++ rest)) = (true, eds ++ rest) := rfl
    unfold expDigits
    rw [hs]
    exact expDigitsAfterSign_render sign mnum mden orig true hne hall hstop

theorem expPart_cons (sign mnum : ℤ) (mden : ℕ) (orig : List Char) (c : Char)
    (t : List Char) :
    expPart sign mnum mden orig (c :: t) =
      if c = 'e' ∨ c = 'E' then expDigits sign mnum mden orig t
      else .ok (c :: t) (litVal sign mnum mden) := rfl

theorem mantFrac_cons (sign : ℤ) (ds orig : List Char) (c : Char) (s3 : List Char) :
    mantFrac sign ds orig (c :: s3) =
      if c = '.' then
        expPart sign
          ((digitsVal ds) * 10 ^ (s3.takeWhile isDigit).length
            + digitsVal (s3.takeWhile isDigit))
          (10 ^ (s3.takeWhile isDigit).length) orig (s3.dropWhile isDigit)
      else expPart sign (digitsVal ds) 1 orig (c :: s3) := rfl

theorem mantDotOnly_cons (sign : ℤ) (orig : List Char) (c : Char) (s3 : List Char) :
    mantDotOnly sign orig (c :: s3) =
      if c = '.' then
        if s3.takeWhile isDigit = [] then .err ⟨orig, .float⟩
        else expPart sign (digitsVal (s3.takeWhile isDigit))
          (10 ^ (s3.takeWhile isDigit).length) orig (s3.dropWhile isDigit)
      else .err ⟨orig, .float⟩ := rfl

theorem recFloat_cons (c : Char) (t : List Char) :
    recFloat (c :: t) =
      if c = '+' then mantAfterSign 1 (c :: t) t
      else if c = '-' then mantAfterSign (-1) (c :: t) t
      else mantAfterSign 1 (c :: t) (c :: t) := rfl

theorem expPart_render (sign mnum : ℤ) (mden : ℕ) (orig : List Char)
    (exp : Option (Sgn × List Char)) (hv : expValidB exp = true)
    {rest : List Char} (hstop : floatStop rest) :
    expPart sign mnum mden orig (expRender exp ++ rest) =
      .ok rest (expVal sign mnum mden exp) := by
  cases exp with
  | none =>
    rw [show expRender none ++ rest = rest from rfl]
    cases rest with
    | nil => rfl
    | cons c t =>
      rcases hstop c rfl with ⟨-, -, he, hE⟩
      rw [expPart_cons, if_neg (by tauto)]
      rfl
  | some p =>
    obtain ⟨es, eds⟩ := p
    have hv' : eds ≠ [] ∧ eds.all isDigit = true := by
      have := hv
      simp only [expValidB, Bool.and_eq_true, Bool.not_eq_true'] at this
      exact ⟨fun hh => by simp [hh] at this, this.2⟩
    rw [show expRender (some (es, eds)) ++ rest = 'e' :: (es.render ++ (eds ++ rest)) by
      simp [expRender, List.append_assoc]]
    rw [expPart_cons, if_pos (Or.inl rfl)]
    exact expDigits_render sign mnum mden orig es hv'.1 hv'.2
      (fun c hc => (hstop c hc).1)

theorem mantFrac_not_dot (sign : ℤ) (ds orig : List Char) {s2 : List Char}
    (h : ∀ c, s2.head? = some c → c ≠ '.') :
    mantFrac sign ds orig s2 = expPart sign (digitsVal ds) 1 orig s2 := by
  cases s2 with
  | nil => rfl
  | cons c s3 => rw [mantFrac_cons, if_neg (h c rfl)]

theorem all_head {p : Char → Bool} {d : Char} {t : List Char}
    (h : (d :: t).all p = true) : p d = true := by
  simp only [List.all_cons, Bool.and_eq_true] at h
  exact h.1

theorem WMant.render_head {m : WMant} (hm : m.valid = true) {c : Char} {y : List Char}
    (hc : (m.render ++ y).head? = some c) : isDigit c = true ∨ c = '.' := by
  cases m with
  | mInt ds =>
    cases ds with
    | nil => simp [WMant.valid] at hm
    | cons d t =>
      simp [WMant.render] at hc
      have hall : (d :: t).all isDigit = true := by
        simp only [WMant.valid, Bool.and_eq_true] at hm
        exact hm.2
      exact .inl (hc ▸ all_head hall)
  | mIntFrac ds fs =>
    cases ds with
    | nil => simp [WMant.valid] at hm
    | cons d t =>
      simp [WMant.render] at hc
      have hall : (d :: t).all isDigit = true := by
        simp only [WMant.valid, Bool.and_eq_true] at hm
        exact hm.1.2
      exact .inl (hc ▸ all_head hall)
  | mFrac fs =>
    simp [WMant.render] at hc
    exact .inr hc.symm

theorem WMant.render_ne_nil {m : WMant} (hm : m.valid = true) : m.render ≠ [] := by
  cases m with
  | mInt ds =>
    cases ds with
    | nil => simp [WMant.valid] at hm
    | cons d t => simp [WMant.render]
  | mIntFrac ds fs => simp [WMant.render]
  | mFrac fs => simp [WMant.render]

theorem mantAfterSign_render (sign : ℤ) (orig : List Char) (m : WMant)
    (exp : Option (Sgn × List Char)) (hm : m.valid = true) (he : expValidB exp = true)
    {rest : List Char} (hstop : floatStop rest) :
    mantAfterSign sign orig (m.render ++ (expRender exp ++ rest)) =
      .ok rest (expVal sign m.mnum m.mden exp) := by
  have hX : ∀ c, (expRender exp ++ rest).head? = some c → isDigit c = false ∧ c ≠ '.' := by
    cases exp with
    | none =>
      intro c hc
      rcases hstop c (by simpa [expRender] using hc) with ⟨h1, h2, -⟩
      exact ⟨h1, h2⟩
    | some p =>
      obtain ⟨es, eds⟩ := p
      intro c hc
      simp [expRender] at hc
      exact hc ▸ ⟨by decide, by decide⟩
  have hXd : ∀ c, (expRender exp ++ rest).head? = some c → isDigit c = false :=
    fun c hc => (hX c hc).1
  cases m with
  | mInt ds =>
    have hds : ds ≠ [] ∧ ds.all isDigit = true := by
      simp only [WMant.valid, Bool.and_eq_true, Bool.not_eq_true'] at hm
      exact ⟨fun hh => by simp [hh] at hm, hm.2⟩
    show mantAfterSign sign orig (ds ++ (expRender exp ++ rest)) = _
    unfold mantAfterSign
    rw [takeWhile_append_all _ _ hds.2 hXd, dropWhile_append_all _ _ hds.2 hXd,
      if_neg hds.1, mantFrac_not_dot _ _ _ (fun c hc => (hX c hc).2)]
    exact expPart_render sign (digitsVal ds) 1 orig exp he hstop
  | mIntFrac ds fs =>
    have hm' := hm
    simp only [WMant.valid, Bool.and_eq_true, Bool.not_eq_true'] at hm'
    have hds : ds ≠ [] := fun hh => by simp [hh] at hm'
    have hdall : ds.all isDigit = true := hm'.1.2
    have hfall : fs.all isDigit = true := hm'.2
    have hform : WMant.render (.mIntFrac ds fs) ++ (expRender exp ++ rest) =
        ds ++ ('.' :: (fs ++ (expRender exp ++ rest))) := by
      simp [WMant.render, List.append_assoc]
    rw [hform]
    unfold mantAfterSign
    rw [takeWhile_append_all _ _ hdall (by intro c hc; simp at hc; exact hc ▸ (by decide)),
      dropWhile_append_all _ _ hdall (by intro c hc; simp at hc; exact hc ▸ (by decide)),
      if_neg hds, mantFrac_cons, if_pos rfl,
      takeWhile_append_all _ _ hfall hXd, dropWhile_append_all _ _ hfall hXd]
    exact expPart_render sign _ _ orig exp he hstop
  | mFrac fs =>
    have hm' := hm
    simp only [WMant.valid, Bool.and_eq_true, Bool.not_eq_true'] at hm'
    have hfs : fs ≠ [] := fun hh => by simp [hh] at hm'
    have hfall : fs.all isDigit = true := hm'.2
    have hform : WMant.render (.mFrac fs) ++ (expRender exp ++ rest) =
        '.' :: (fs ++ (expRender exp ++ rest)) := by
      simp [WMant.render, List.append_assoc]
    rw [hform]
    unfold mantAfterSign
    rw [show (('.' :: (fs ++ (expRender exp ++ rest))).takeWhile isDigit) = [] by
      have hdot : isDigit '.' = false := by decide
      simp [List.takeWhile_cons, hdot]]
    rw [if_pos rfl, mantDotOnly_cons, if_pos rfl,
      takeWhile_append_all _ _ hfall hXd, dropWhile_append_all _ _ hfall hXd,
      if_neg hfs]
    exact expPart_render sign _ _ orig exp he hstop

theorem recFloat_render (l : WLit) (hv : l.valid = true) {rest : List Char}
    (hstop : floatStop rest) : recFloat (l.render ++ rest) = .ok rest l.val := by
  obtain ⟨sgn, m, exp⟩ := l
  have hv' : m.valid = true ∧ expValidB exp = true := by
    simpa [WLit.valid] using hv
  cases sgn with
  | sNone =>
    rw [show WLit.render ⟨.sNone, m, exp⟩ ++ rest = m.render ++ (expRender exp ++ rest) by
      simp [WLit.render, Sgn.render, List.append_assoc]]
    cases hmr : m.render ++ (expRender exp ++ rest) with
    | nil =>
      rcases List.append_eq_nil.mp hmr with ⟨h1, -⟩
      exact absurd h1 (WMant.render_ne_nil hv'.1)
    | cons c t =>
      have hc : isDigit c = true ∨ c = '.' := WMant.render_head hv'.1 (by rw [hmr]; rfl)
      have hplus : c ≠ '+' := by
        rcases hc with hd | rfl
        · rintro rfl; exact absurd hd (by decide)
        · decide
      have hminus : c ≠ '-' := by
        rcases hc with hd | rfl
        · rintro rfl; exact absurd hd (by decide)
        · decide
      rw [recFloat_cons, if_neg hplus, if_neg hminus, ← hmr]
      exact mantAfterSign_render 1 _ m exp hv'.1 hv'.2 hstop
  | sPlus =>
    rw [show WLit.render ⟨.sPlus, m, exp⟩ ++ rest = '+' :: (m.render ++ (expRender exp ++ rest)) by
      simp [WLit.render, Sgn.render, List.append_assoc]]
    rw [recFloat_cons, if_pos rfl]
    exact mantAfterSign_render 1 _ m exp hv'.1 hv'.2 hstop
  | sMinus =>
    rw [show WLit.render ⟨.sMinus, m, exp⟩ ++ rest = '-' :: (m.render ++ (expRender exp ++ rest)) by
      simp [WLit.render, Sgn.render, List.append_assoc]]
    rw [recFloat_cons, if_neg (by decide), if_pos rfl]
    exact mantAfterSign_render (-1) _ m exp hv'.1 hv'.2 hstop

theorem doubleP_render (l : WLit) (hv : l.valid = true) {rest : List Char}
    (hstop : floatStop rest) : doubleP (l.render ++ rest) = .ok rest (.num l.val) := by
  unfold doubleP
  rw [recFloat_render l hv hstop]

/-! ## Parsing rendered program text -/

theorem isDigit_not_ws {c : Char} (h : isDigit c = true) : isWs c = false := by
  cases hws : isWs c
  · rfl
  · exact absurd h (by simp [(isWs_not_special hws).1])

theorem dropWhile_ws_append_fix {w : List Char} (hw : allWs w = true) {r : List Char}
    (hr : r.dropWhile isWs = r) : (w ++ r).dropWhile isWs = r := by
  induction w with
  | nil => simpa using hr
  | cons e t ih =>
    simp only [allWs, List.all_cons, Bool.and_eq_true] at hw
    simpa [List.dropWhile_cons, hw.1] using ih (by simp [allWs, hw.2])

theorem WLit.render_head_not_ws {l : WLit} (hv : l.valid = true) {c : Char} {y : List Char}
    (hc : (l.render ++ y).head? = some c) : isWs c = false := by
  obtain ⟨sgn, m, exp⟩ := l
  have hm : m.valid = true := by
    simp only [WLit.valid, Bool.and_eq_true] at hv
    exact hv.1
  cases sgn with
  | sNone =>
    have hc' : (m.render ++ (expRender exp ++ y)).head? = some c := by
      simpa [WLit.render, Sgn.render, List.append_assoc] using hc
    rcases WMant.render_head hm hc' with hd | rfl
    · exact isDigit_not_ws hd
    · decide
  | sPlus =>
    have hc' : c = '+' := by simpa [WLit.render, Sgn.render] using hc.symm
    subst hc'; decide
  | sMinus =>
    have hc' : c = '-' := by simpa [WLit.render, Sgn.render] using hc.symm
    subst hc'; decide

theorem WLit.render_ws_fix {l : WLit} (hv : l.valid = true) (y : List Char) :
    (l.render ++ y).dropWhile isWs = l.render ++ y := by
  cases hh : l.render ++ y with
  | nil => simp
  | cons c t =>
    have hc : isWs c = false := WLit.render_head_not_ws hv (by rw [hh]; rfl)
    rw [hh] at hh ⊢
    exact dropWhile_cons_neg _ hc

theorem WAtom.render_atom_ws_fix (a : WAtom) (y : List Char) :
    (a.render ++ y).dropWhile isWs = a.render ++ y := by
  cases a with
  | wtranslation w1 w2 la w3 w4 lb w5 =>
    rw [show (WAtom.wtranslation w1 w2 la w3 w4 lb w5).render ++ y =
      't' :: ("ranslation".toList ++ (w1 ++
        '(' :: (w2 ++ la.render ++ w3 ++ ',' :: (w4 ++ lb.render ++ w5 ++ [')'])) ++ y))
      from rfl]
    exact dropWhile_cons_neg _ (by decide)
  | wrotation w1 w2 la w3 w4 lb w5 w6 lc w7 =>
    rw [show (WAtom.wrotation w1 w2 la w3 w4 lb w5 w6 lc w7).render ++ y =
      'r' :: ("otation".toList ++ (w1 ++
        '(' :: (w2 ++ la.render ++ w3 ++ ',' :: (w4 ++ lb.render ++ w5 ++
          ',' :: (w6 ++ lc.render ++ w7 ++ [')']))) ++ y))
      from rfl]
    exact dropWhile_cons_neg _ (by decide)
  | witer w1 w2 body w3 =>
    rw [show (WAtom.witer w1 w2 body w3).render ++ y =
      'i' :: ("ter".toList ++ (w1 ++ '(' :: (w2 ++ body.render ++ w3 ++ [')']) ++ y))
      from rfl]
    exact dropWhile_cons_neg _ (by decide)
  | weither w1 left w2 w3 w4 w5 right w6 =>
    rw [show (WAtom.weither w1 left w2 w3 w4 w5 right w6).render ++ y =
      '{' :: ((w1 ++ left.render ++ w2 ++ '}' :: (w3 ++ "or".toList ++ w4 ++
        '{' :: (w5 ++ right.render ++ w6 ++ ['}']))) ++ y)
      from rfl]
    exact dropWhile_cons_neg _ (by decide)

theorem WExpr.render_expr_ws_fix (w : WExpr) (y : List Char) :
    (w.render ++ y).dropWhile isWs = w.render ++ y := by
  cases w with
  | wsingle a => exact WAtom.render_atom_ws_fix a y
  | wchain a w1 w2 rest =>
    rw [show (WExpr.wchain a w1 w2 rest).render ++ y =
      a.render ++ (w1 ++ ';' :: (w2 ++ rest.render) ++ y) by
      simp [WExpr.render, List.append_assoc]]
    exact WAtom.render_atom_ws_fix a _

theorem altList_first_ok {α : Type} (p q : List Char → PRes α)
    (t : List (List Char → PRes α)) {s rest : List Char} {v : α}
    (h : p s = .ok rest v) : altList (p :: q :: t) s = .ok rest v := by
  rw [altList_cons_eq, h]

theorem altList_first_err {α : Type} (p q : List Char → PRes α)
    (t : List (List Char → PRes α)) {s : List Char}
    (h : ∃ e, p s = .err e) : altList (p :: q :: t) s = altList (q :: t) s := by
  obtain ⟨e, he⟩ := h
  rw [altList_cons_eq, he]

theorem translation_expression_err {s : List Char} {e : PError}
    (h : tagP ("translation".toList) s = .err e) : translation_expression s = .err e := by
  unfold translation_expression
  rw [h]
  rfl

theorem rotation_expression_err {s : List Char} {e : PError}
    (h : tagP ("rotation".toList) s = .err e) : rotation_expression s = .err e := by
  unfold rotation_expression
  rw [h]
  rfl

theorem iterate_expressionR_err (rec : List Char → PRes Expression) {s : List Char}
    {e : PError} (h : tagP ("iter".toList) s = .err e) :
    iterate_expressionR rec s = .err e := by
  unfold iterate_expressionR
  rw [h]
  rfl

theorem eitheror_expressionR_err (rec : List Char → PRes Expression) {s : List Char}
    {e : PError} (h : charP '{' s = .err e) : eitheror_expressionR rec s = .err e := by
  unfold eitheror_expressionR eitheror_leafR
  rw [h]
  rfl

theorem translation_expression_err_cons {c : Char} (hc : c ≠ 't') (x : List Char) :
    translation_expression (c :: x) = .err ⟨c :: x, .tag⟩ :=
  translation_expression_err (tagP_err_head _ _ hc)

theorem rotation_expression_err_cons {c : Char} (hc : c ≠ 'r') (x : List Char) :
    rotation_expression (c :: x) = .err ⟨c :: x, .tag⟩ :=
  rotation_expression_err (tagP_err_head _ _ hc)

theorem iterate_expressionR_err_cons (rec : List Char → PRes Expression) {c : Char}
    (hc : c ≠ 'i') (x : List Char) : iterate_expressionR rec (c :: x) = .err ⟨c :: x, .tag⟩ :=
  iterate_expressionR_err rec (tagP_err_head _ _ hc)

theorem comma_separator_render {w wb : List Char} (hw : allWs w = true)
    (hwb : allWs wb = true) {r : List Char} (hr : r.dropWhile isWs = r) :
    comma_separator (w ++ (',' :: (wb ++ r))) = .ok r () := by
  unfold comma_separator
  rw [pbind_ok_arg _ (multispace0_eq _),
    dropWhile_ws_append_fix hw (dropWhile_cons_neg _ (by decide)),
    pbind_ok_arg _ (charP_cons _ _), pbind_ok_arg _ (multispace0_eq _),
    dropWhile_ws_append_fix hwb hr]

theorem float_pair_render {la lb : WLit} (ha : la.valid = true) (hb : lb.valid = true)
    {w3 w4 : List Char} (hw3 : allWs w3 = true) (hw4 : allWs w4 = true)
    {r : List Char} (hstop : floatStop r) :
    float_pair (la.render ++ (w3 ++ (',' :: (w4 ++ (lb.render ++ r))))) =
      .ok r (.num la.val, .num lb.val) := by
  unfold float_pair
  rw [pbind_ok_arg _ (doubleP_render la ha
      (floatStop_ws_cons hw3 _ ⟨by decide, by decide, by decide, by decide⟩)),
    pbind_ok_arg _ (comma_separator_render hw3 hw4 (WLit.render_ws_fix hb _)),
    pbind_ok_arg _ (doubleP_render lb hb hstop)]

theorem float_triple_render {la lb lc : WLit} (ha : la.valid = true)
    (hb : lb.valid = true) (hc : lc.valid = true)
    {w3 w4 w5 w6 : List Char} (hw3 : allWs w3 = true) (hw4 : allWs w4 = true)
    (hw5 : allWs w5 = true) (hw6 : allWs w6 = true)
    {r : List Char} (hstop : floatStop r) :
    float_triple (la.render ++ (w3 ++ (',' :: (w4 ++ (lb.render ++
        (w5 ++ (',' :: (w6 ++ (lc.render ++ r))))))))) =
      .ok r (.num la.val, .num lb.val, .num lc.val) := by
  unfold float_triple
  rw [pbind_ok_arg _ (doubleP_render la ha
      (floatStop_ws_cons hw3 _ ⟨by decide, by decide, by decide, by decide⟩)),
    pbind_ok_arg _ (comma_separator_render hw3 hw4 (WLit.render_ws_fix hb _)),
    pbind_ok_arg _ (doubleP_render lb hb
      (floatStop_ws_cons hw5 _ ⟨by decide, by decide, by decide, by decide⟩)),
    pbind_ok_arg _ (comma_separator_render hw5 hw6 (WLit.render_ws_fix hc _)),
    pbind_ok_arg _ (doubleP_render lc hc hstop)]

theorem eitheror_leafR_render_ok {w1 w2 : List Char} (hw1 : allWs w1 = true)
    (hw2 : allWs w2 = true) {inner : WExpr} (y : List Char)
    (hin : expression (inner.render ++ (w2 ++ ('}' :: y))) =
      .ok (w2 ++ ('}' :: y)) inner.strip) :
    eitheror_leafR expression ('{' :: (w1 ++ (inner.render ++ (w2 ++ ('}' :: y))))) =
      .ok y inner.strip := by
  unfold eitheror_leafR
  rw [pbind_ok_arg _ (charP_cons _ _), pbind_ok_arg _ (multispace0_eq _),
    dropWhile_ws_append_fix hw1 (WExpr.render_expr_ws_fix inner _),
    pbind_ok_arg _ hin, pbind_ok_arg _ (multispace0_eq _),
    dropWhile_ws_append_fix hw2 (dropWhile_cons_neg _ (by decide)),
    pbind_ok_arg _ (charP_cons _ _)]

theorem closer_not_semi {r : List Char}
    (h : r.dropWhile isWs = [] ∨ startsWithChar (r.dropWhile isWs) ')' = true ∨
      startsWithChar (r.dropWhile isWs) '}' = true) :
    startsWithChar (r.dropWhile isWs) ';' = false := by
  cases hd : r.dropWhile isWs with
  | nil => rfl
  | cons c t =>
    rw [hd] at h
    rcases h with h | h | h
    · exact absurd h (by simp)
    · have : c = ')' := by simpa [startsWithChar] using h
      subst this; rfl
    · have : c = '}' := by simpa [startsWithChar] using h
      subst this; rfl

theorem closer_cond {r : List Char}
    (h : r.dropWhile isWs = [] ∨ startsWithChar (r.dropWhile isWs) ')' = true ∨
      startsWithChar (r.dropWhile isWs) '}' = true) :
    (decide (r.dropWhile isWs = []) || startsWithChar (r.dropWhile isWs) ')' ||
      startsWithChar (r.dropWhile isWs) '}') = true := by
  rcases h with h | h | h <;> simp [h]

theorem chain_check_semi {rec : List Char → PRes Expression} {rem s2 : List Char}
    {expr : Expression} (u : Unit) (h : semicolon_separator rem = .ok s2 u) :
    chain_check rec rem expr = chain_continue rec expr s2 := by
  unfold chain_check
  rw [h]

theorem chain_check_closer {rec : List Char → PRes Expression} {rem : List Char}
    {expr : Expression}
    (h : rem.dropWhile isWs = [] ∨ startsWithChar (rem.dropWhile isWs) ')' = true ∨
      startsWithChar (rem.dropWhile isWs) '}' = true) :
    chain_check rec rem expr = .ok rem expr := by
  unfold chain_check
  rw [semicolon_separator_err_of (closer_not_semi h)]
  show (if (decide (rem.dropWhile isWs = []) || startsWithChar (rem.dropWhile isWs) ')' ||
      startsWithChar (rem.dropWhile isWs) '}') = true then
    PRes.ok rem expr else PRes.fail ⟨rem.dropWhile isWs, .char⟩) = PRes.ok rem expr
  rw [if_pos (closer_cond h)]

theorem chain_check_fail {rec : List Char → PRes Expression} {rem : List Char}
    {expr : Expression}
    (hns : startsWithChar (rem.dropWhile isWs) ';' = false)
    (hne : rem.dropWhile isWs ≠ [])
    (hnp : startsWithChar (rem.dropWhile isWs) ')' = false)
    (hnb : startsWithChar (rem.dropWhile isWs) '}' = false) :
    chain_check rec rem expr = .fail ⟨rem.dropWhile isWs, .char⟩ := by
  unfold chain_check
  rw [semicolon_separator_err_of hns]
  show (if (decide (rem.dropWhile isWs = []) || startsWithChar (rem.dropWhile isWs) ')' ||
      startsWithChar (rem.dropWhile isWs) '}') = true then
    PRes.ok rem expr else PRes.fail ⟨rem.dropWhile isWs, .char⟩) =
      PRes.fail ⟨rem.dropWhile isWs, .char⟩
  rw [if_neg (by simp [hne, hnp, hnb])]

theorem rotation_expression_render {la lb lc : WLit} (ha : la.valid = true)
    (hb : lb.valid = true) (hc : lc.valid = true)
    {w1 w2 w3 w4 w5 w6 w7 : List Char} (hw1 : allWs w1 = true) (hw2 : allWs w2 = true)
    (hw3 : allWs w3 = true) (hw4 : allWs w4 = true) (hw5 : allWs w5 = true)
    (hw6 : allWs w6 = true) (hw7 : allWs w7 = true) (rest : List Char) :
    rotation_expression ("rotation".toList ++ (w1 ++ ('(' :: (w2 ++ (la.render ++
      (w3 ++ (',' :: (w4 ++ (lb.render ++ (w5 ++ (',' :: (w6 ++ (lc.render ++
        (w7 ++ (')' :: rest))))))))))))))) =
      .ok rest (.Rotation (.num la.val) (.num lb.val) (.num lc.val)) := by
  unfold rotation_expression
  rw [pbind_ok_arg _ (tagP_append _ _), pbind_ok_arg _ (multispace0_eq _),
    dropWhile_ws_append_fix hw1 (dropWhile_cons_neg _ (by decide))]
  unfold parenthesized_float_triple
  rw [pbind_ok_arg _ (charP_cons _ _), pbind_ok_arg _ (multispace0_eq _),
    dropWhile_ws_append_fix hw2 (WLit.render_ws_fix ha _),
    pbind_ok_arg _ (float_triple_render ha hb hc hw3 hw4 hw5 hw6
      (floatStop_ws_cons hw7 _ ⟨by decide, by decide, by decide, by decide⟩)),
    pbind_ok_arg _ (multispace0_eq _),
    dropWhile_ws_append_fix hw7 (dropWhile_cons_neg _ (by decide)),
    pbind_ok_arg _ (charP_cons _ _)]
  rfl

theorem iterate_expressionR_render_ok {w1 w2 w3 : List Char}
    (hw1 : allWs w1 = true) (hw2 : allWs w2 = true) (hw3 : allWs w3 = true)
    (body : WExpr) (rest : List Char)
    (hbody : expression (body.render ++ (w3 ++ (')' :: rest))) =
      .ok (w3 ++ (')' :: rest)) body.strip) :
    iterate_expressionR expression ("iter".toList ++ (w1 ++ ('(' :: (w2 ++
      (body.render ++ (w3 ++ (')' :: rest))))))) = .ok rest (.Iterate body.strip) := by
  unfold iterate_expressionR
  rw [pbind_ok_arg _ (tagP_append _ _), pbind_ok_arg _ (multispace0_eq _),
    dropWhile_ws_append_fix hw1 (dropWhile_cons_neg _ (by decide)),
    pbind_ok_arg _ (charP_cons _ _), pbind_ok_arg _ (multispace0_eq _),
    dropWhile_ws_append_fix hw2 (WExpr.render_expr_ws_fix body _),
    pbind_ok_arg _ hbody,
    pbind_ok_arg _ (multispace0_eq _),
    dropWhile_ws_append_fix hw3 (dropWhile_cons_neg _ (by decide)),
    pbind_ok_arg _ (charP_cons _ _)]

theorem eitheror_expressionR_render_ok {w1 w2 w3 w4 w5 w6 : List Char}
    (hw1 : allWs w1 = true) (hw2 : allWs w2 = true) (hw3 : allWs w3 = true)
    (hw4 : allWs w4 = true) (hw5 : allWs w5 = true) (hw6 : allWs w6 = true)
    (left right : WExpr) (rest : List Char)
    (hin1 : expression (left.render ++ (w2 ++ ('}' :: (w3 ++ ("or".toList ++ (w4 ++
        ('{' :: (w5 ++ (right.render ++ (w6 ++ ('}' :: rest))))))))))) =
      .ok (w2 ++ ('}' :: (w3 ++ ("or".toList ++ (w4 ++ ('{' :: (w5 ++ (right.render ++
        (w6 ++ ('}' :: rest)))))))))) left.strip)
    (hin2 : expression (right.render ++ (w6 ++ ('}' :: rest))) =
      .ok (w6 ++ ('}' :: rest)) right.strip) :
    eitheror_expressionR expression ('{' :: (w1 ++ (left.render ++ (w2 ++ ('}' ::
      (w3 ++ ("or".toList ++ (w4 ++ ('{' :: (w5 ++ (right.render ++
        (w6 ++ ('}' :: rest))))))))))))) =
      .ok rest (.EitherOr left.strip right.strip) := by
  have hfix3 : ("or".toList ++ (w4 ++ ('{' :: (w5 ++ (right.render ++
      (w6 ++ ('}' :: rest))))))).dropWhile isWs =
      "or".toList ++ (w4 ++ ('{' :: (w5 ++ (right.render ++ (w6 ++ ('}' :: rest)))))) := by
    rw [show ("or".toList ++ (w4 ++ ('{' :: (w5 ++ (right.render ++
        (w6 ++ ('}' :: rest))))))) =
      'o' :: ("r".toList ++ (w4 ++ ('{' :: (w5 ++ (right.render ++
        (w6 ++ ('}' :: rest))))))) from rfl]
    exact dropWhile_cons_neg _ (by decide)
  unfold eitheror_expressionR
  rw [pbind_ok_arg _ (eitheror_leafR_render_ok hw1 hw2 _ hin1),
    pbind_ok_arg _ (multispace0_eq _),
    dropWhile_ws_append_fix hw3 hfix3,
    pbind_ok_arg _ (tagP_append _ _),
    pbind_ok_arg _ (multispace0_eq _),
    dropWhile_ws_append_fix hw4 (dropWhile_cons_neg _ (by decide)),
    pbind_ok_arg _ (eitheror_leafR_render_ok hw5 hw6 _ hin2)]

mutual

theorem WAtom.parse_atom_render (a : WAtom) (hv : a.valid = true) (rest : List Char) :
    altList (atom_alternatives expression) (a.render ++ rest) = .ok rest a.strip := by
  cases a with
  | wtranslation w1 w2 la w3 w4 lb w5 =>
    have hval := hv
    simp only [WAtom.valid, Bool.and_eq_true] at hval
    obtain ⟨⟨⟨⟨⟨⟨hw1, hw2⟩, ha⟩, hw3⟩, hw4⟩, hb⟩, hw5⟩ := hval
    rw [show (WAtom.wtranslation w1 w2 la w3 w4 lb w5).render ++ rest =
        "translation".toList ++ (w1 ++ ('(' :: (w2 ++ (la.render ++ (w3 ++ (',' ::
          (w4 ++ (lb.render ++ (w5 ++ (')' :: rest)))))))))) by
      simp [WAtom.render, List.append_assoc]]
    refine altList_first_ok _ _ _ ?_
    unfold translation_expression
    rw [pbind_ok_arg _ (tagP_append _ _), pbind_ok_arg _ (multispace0_eq _),
      dropWhile_ws_append_fix hw1 (dropWhile_cons_neg _ (by decide))]
    unfold parenthesized_float_pair
    rw [pbind_ok_arg _ (charP_cons _ _), pbind_ok_arg _ (multispace0_eq _),
      dropWhile_ws_append_fix hw2 (WLit.render_ws_fix ha _),
      pbind_ok_arg _ (float_pair_render ha hb hw3 hw4
        (floatStop_ws_cons hw5 _ ⟨by decide, by decide, by decide, by decide⟩)),
      pbind_ok_arg _ (multispace0_eq _),
      dropWhile_ws_append_fix hw5 (dropWhile_cons_neg _ (by decide)),
      pbind_ok_arg _ (charP_cons _ _)]
    rfl
  | wrotation w1 w2 la w3 w4 lb w5 w6 lc w7 =>
    have hval := hv
    simp only [WAtom.valid, Bool.and_eq_true] at hval
    obtain ⟨⟨⟨⟨⟨⟨⟨⟨⟨hw1, hw2⟩, ha⟩, hw3⟩, hw4⟩, hb⟩, hw5⟩, hw6⟩, hc⟩, hw7⟩ := hval
    rw [show (WAtom.wrotation w1 w2 la w3 w4 lb w5 w6 lc w7).render ++ rest =
        "rotation".toList ++ (w1 ++ ('(' :: (w2 ++ (la.render ++ (w3 ++ (',' ::
          (w4 ++ (lb.render ++ (w5 ++ (',' :: (w6 ++ (lc.render ++
            (w7 ++ (')' :: rest)))))))))))))) by
      simp [WAtom.render, List.append_assoc]]
    refine (altList_first_err _ _ _
      ⟨_, translation_expression_err_cons (by decide) _⟩).trans ?_
    exact altList_first_ok _ _ _
      (rotation_expression_render ha hb hc hw1 hw2 hw3 hw4 hw5 hw6 hw7 rest)
  | witer w1 w2 body w3 =>
    have hval := hv
    simp only [WAtom.valid, Bool.and_eq_true] at hval
    obtain ⟨⟨⟨hw1, hw2⟩, hbody⟩, hw3⟩ := hval
    rw [show (WAtom.witer w1 w2 body w3).render ++ rest =
        "iter".toList ++ (w1 ++ ('(' :: (w2 ++ (body.render ++
          (w3 ++ (')' :: rest)))))) by
      simp [WAtom.render, List.append_assoc]]
    refine (altList_first_err _ _ _
      ⟨_, translation_expression_err_cons (by decide) _⟩).trans ?_
    refine (altList_first_err _ _ _
      ⟨_, rotation_expression_err_cons (by decide) _⟩).trans ?_
    have hcl : (w3 ++ (')' :: rest)).dropWhile isWs = [] ∨
        startsWithChar ((w3 ++ (')' :: rest)).dropWhile isWs) ')' = true ∨
        startsWithChar ((w3 ++ (')' :: rest)).dropWhile isWs) '}' = true := by
      right; left
      rw [dropWhile_ws_append_fix hw3 (dropWhile_cons_neg _ (by decide))]
      rfl
    exact altList_first_ok _ _ _
      (iterate_expressionR_render_ok hw1 hw2 hw3 body rest
        (WExpr.parse_expr_render body hbody (w3 ++ (')' :: rest)) hcl))
  | weither w1 left w2 w3 w4 w5 right w6 =>
    have hval := hv
    simp only [WAtom.valid, Bool.and_eq_true] at hval
    obtain ⟨⟨⟨⟨⟨⟨⟨hw1, hleft⟩, hw2⟩, hw3⟩, hw4⟩, hw5⟩, hright⟩, hw6⟩ := hval
    rw [show (WAtom.weither w1 left w2 w3 w4 w5 right w6).render ++ rest =
        '{' :: (w1 ++ (left.render ++ (w2 ++ ('}' :: (w3 ++ ("or".toList ++ (w4 ++
          ('{' :: (w5 ++ (right.render ++ (w6 ++ ('}' :: rest)))))))))))) by
      simp [WAtom.render, List.append_assoc]]
    refine (altList_first_err _ _ _
      ⟨_, translation_expression_err_cons (by decide) _⟩).trans ?_
    refine (altList_first_err _ _ _
      ⟨_, rotation_expression_err_cons (by decide) _⟩).trans ?_
    refine (altList_first_err _ _ _
      ⟨_, iterate_expressionR_err_cons _ (by decide) _⟩).trans ?_
    refine (altList_singleton_eq _ _).trans ?_
    have hcl1 : (w2 ++ ('}' :: (w3 ++ ("or".toList ++ (w4 ++ ('{' :: (w5 ++
        (right.render ++ (w6 ++ ('}' :: rest)))))))))).dropWhile isWs = [] ∨
        startsWithChar ((w2 ++ ('}' :: (w3 ++ ("or".toList ++ (w4 ++ ('{' :: (w5 ++
          (right.render ++ (w6 ++ ('}' :: rest)))))))))).dropWhile isWs) ')' = true ∨
        startsWithChar ((w2 ++ ('}' :: (w3 ++ ("or".toList ++ (w4 ++ ('{' :: (w5 ++
          (right.render ++ (w6 ++ ('}' :: rest)))))))))).dropWhile isWs) '}' = true := by
      right; right
      rw [dropWhile_ws_append_fix hw2 (dropWhile_cons_neg _ (by decide))]
      rfl
    have hin1 := WExpr.parse_expr_render left hleft (w2 ++ ('}' :: (w3 ++ ("or".toList ++ (w4 ++
      ('{' :: (w5 ++ (right.render ++ (w6 ++ ('}' :: rest)))))))))) hcl1
    have hcl2 : (w6 ++ ('}' :: rest)).dropWhile isWs = [] ∨
        startsWithChar ((w6 ++ ('}' :: rest)).dropWhile isWs) ')' = true ∨
        startsWithChar ((w6 ++ ('}' :: rest)).dropWhile isWs) '}' = true := by
      right; right
      rw [dropWhile_ws_append_fix hw6 (dropWhile_cons_neg _ (by decide))]
      rfl
    have hin2 := WExpr.parse_expr_render right hright (w6 ++ ('}' :: rest)) hcl2
    exact eitheror_expressionR_render_ok hw1 hw2 hw3 hw4 hw5 hw6 left right rest hin1 hin2

theorem WExpr.parse_expr_render (w : WExpr) (hv : w.valid = true) (rest : List Char)
    (hrest : rest.dropWhile isWs = [] ∨ startsWithChar (rest.dropWhile isWs) ')' = true ∨
      startsWithChar (rest.dropWhile isWs) '}' = true) :
    expression (w.render ++ rest) = .ok rest w.strip := by
  cases w with
  | wsingle a =>
    rw [show (WExpr.wsingle a).render ++ rest = a.render ++ rest from rfl,
      expression_unfold]
    unfold expression_body
    rw [WAtom.parse_atom_render a hv rest]
    exact chain_check_closer hrest
  | wchain a w1 w2 rest' =>
    have hval := hv
    simp only [WExpr.valid, Bool.and_eq_true] at hval
    obtain ⟨⟨⟨hva, hw1⟩, hw2⟩, hvr⟩ := hval
    rw [show (WExpr.wchain a w1 w2 rest').render ++ rest =
        a.render ++ (w1 ++ (';' :: (w2 ++ (rest'.render ++ rest)))) by
      simp [WExpr.render, List.append_assoc],
      expression_unfold]
    unfold expression_body
    rw [WAtom.parse_atom_render a hva _]
    have hsem : semicolon_separator (w1 ++ (';' :: (w2 ++ (rest'.render ++ rest)))) =
        .ok ((w2 ++ (rest'.render ++ rest)).dropWhile isWs) () :=
      semicolon_separator_ok_of
        (dropWhile_ws_append_fix hw1 (dropWhile_cons_neg _ (by decide)))
    rw [dropWhile_ws_append_fix hw2 (WExpr.render_expr_ws_fix rest' _)] at hsem
    show chain_check expression (w1 ++ (';' :: (w2 ++ (rest'.render ++ rest)))) a.strip =
      .ok rest (.Chained a.strip rest'.strip)
    rw [chain_check_semi () hsem]
    unfold chain_continue
    rw [WExpr.parse_expr_render rest' hvr rest hrest]

end

/-! ## Claim theorems -/

theorem expression_of_atom_ok {s rem : List Char} {e : Expression}
    (h : atomP s = .ok rem e) : expression s = chain_check expression rem e := by
  rw [expression_unfold]
  unfold expression_body
  rw [show altList (atom_alternatives expression) s = .ok rem e from h]

/-- C1: whenever the atom alternation of the top-level `expression` parser has
succeeded and the remainder, after stripping leading whitespace, is nonempty
and starts with none of `;`, `)`, `}`, the parser returns the fatal
`Err::Failure` whose reported remainder is exactly the offending text; a fatal
result of an alternative stops `alt` without trying any later sibling; and, in
particular, `"translation(1,2) garbage"` fails fatally at `"garbage"`, also
when nested under an enclosing alternation as in
`"iter(translation(1,2) garbage)"`. -/
theorem C1_malformed_fatal :
    (∀ s rem e, atomP s = .ok rem e →
      rem.dropWhile isWs ≠ [] →
      startsWithChar (rem.dropWhile isWs) ';' = false →
      startsWithChar (rem.dropWhile isWs) ')' = false →
      startsWithChar (rem.dropWhile isWs) '}' = false →
      expression s = .fail ⟨rem.dropWhile isWs, .char⟩) ∧
    (∀ (p : List Char → PRes Expression) (ps : List (List Char → PRes Expression))
      (s : List Char) (e : PError), p s = .fail e → altList (p :: ps) s = .fail e) ∧
    expression ("translation(1,2) garbage".toList) =
      .fail ⟨"garbage".toList, .char⟩ ∧
    expression ("iter(translation(1,2) garbage)".toList) =
      .fail ⟨"garbage)".toList, .char⟩ := by
  refine ⟨?_, ?_, by decide, by decide⟩
  · intro s rem e hatom hne hns hnp hnb
    rw [expression_of_atom_ok hatom]
    exact chain_check_fail hns hne hnp hnb
  · intro p ps s e hp
    cases ps with
    | nil => exact (altList_singleton_eq p s).trans hp
    | cons q t => rw [altList_cons_eq, hp]

theorem C1_malformed_fatal_witness :
    expression ("translation(1,2) garbage".toList) =
      .fail ⟨(" garbage".toList).dropWhile isWs, .char⟩ :=
  C1_malformed_fatal.1 ("translation(1,2) garbage".toList) (" garbage".toList)
    (.Translation (.num 1) (.num 2)) (by decide) (by decide) (by decide)
    (by decide) (by decide)

/-- C2 (counterexample): the input `"{translation(1,2)}"` does NOT parse with
the top-level `expression` parser — a lone braced expression is only the leaf
of an `eitherOr`, so the alternation is exhausted and the parser returns the
recoverable error of its last alternative (the missing `or` tag at the end of
input).  This refutes the claim that this input succeeds at top level. -/
theorem C2_counterexample :
    expression ("\x7btranslation(1,2)\x7d".toList) = .err ⟨[], .tag⟩ := by decide

/-- C2 (amended): `"{translation(1,2)}"` is consumed in full by
`eitheror_leaf` (the production in which a braced expression occurs), and
`"iter(translation(1,2))"` succeeds with the top-level parser, because an atom
whose immediate follower is `}` or `)` is accepted as a complete expression
without a trailing `;`. -/
theorem C2_terminator_acceptance :
    eitheror_leaf ("\x7btranslation(1,2)\x7d".toList) =
      .ok [] (.Translation (.num 1) (.num 2)) ∧
    expression ("iter(translation(1,2))".toList) =
      .ok [] (.Iterate (.Translation (.num 1) (.num 2))) :=
  ⟨by decide, by decide⟩

/-- C3 (counterexample): inserting a whitespace run at the very start of the
valid program `"translation(1,2)"` changes the parse result from success to a
recoverable error — no parser in the alternation strips leading whitespace
before its first token.  This refutes the claim for insertions at the very
start of the input. -/
theorem C3_counterexample :
    expression ("translation(1,2)".toList) =
      .ok [] (.Translation (.num 1) (.num 2)) ∧
    expression (' ' :: "translation(1,2)".toList) =
      .err ⟨' ' :: "translation(1,2)".toList, .char⟩ :=
  ⟨by decide, by decide⟩

/-- C3 (amended): whitespace invariance at every *interior* insertion point.
A valid program text is a whitespace-decorated token tree (`WExpr`); for every
decoration the parse consumes the entire text and returns exactly the tree of
its tokens, so any two decorations of the same token tree — i.e. any
rearrangement of whitespace runs around tokens and separators other than at
the very start of the input — parse to the same `Expression`. -/
theorem C3_ws_invariance (w w2 : WExpr) (hv : w.valid = true) (hv2 : w2.valid = true)
    (hsame : w.strip = w2.strip) :
    expression w.render = .ok [] w.strip ∧ expression w.render = expression w2.render := by
  have h1 := WExpr.parse_expr_render w hv [] (.inl rfl)
  have h2 := WExpr.parse_expr_render w2 hv2 [] (.inl rfl)
  rw [List.append_nil] at h1 h2
  exact ⟨h1, by rw [h1, h2, hsame]⟩

theorem C3_ws_invariance_witness :
    expression (WExpr.wsingle (.wtranslation [] [] ⟨.sNone, .mInt ['1'], none⟩ [] []
        ⟨.sNone, .mInt ['2'], none⟩ [])).render =
      .ok [] (WExpr.wsingle (.wtranslation [] [] ⟨.sNone, .mInt ['1'], none⟩ [] []
        ⟨.sNone, .mInt ['2'], none⟩ [])).strip ∧
    expression (WExpr.wsingle (.wtranslation [] [] ⟨.sNone, .mInt ['1'], none⟩ [] []
        ⟨.sNone, .mInt ['2'], none⟩ [])).render =
      expression (WExpr.wsingle (.wtranslation [' '] ['\n'] ⟨.sNone, .mInt ['1'], none⟩
        ['\t'] [' ', ' '] ⟨.sNone, .mInt ['2'], none⟩ ['\r'])).render :=
  C3_ws_invariance _ _ (by decide) (by decide) (by decide)

/-- C4: after an atom and a `;` separator, a full expression is mandatory —
its success yields the right-associative `Chained(atom, rest)` and any of its
errors propagates; in particular the chained example from the test suite
parses to the expected nested tree. -/
theorem C4_chaining :
    (∀ s rem e1 s2 u, atomP s = .ok rem e1 → semicolon_separator rem = .ok s2 u →
      (∀ rest e2, expression s2 = .ok rest e2 →
        expression s = .ok rest (.Chained e1 e2)) ∧
      (∀ er, expression s2 = .err er → expression s = .err er) ∧
      (∀ er, expression s2 = .fail er → expression s = .fail er)) ∧
    expression
        ("iter(translation(12.0, 0.4); rotation(0.2, 0.3, 0.5)); translation( 8, 15 )".toList) =
      .ok [] (.Chained (.Iterate (.Chained (.Translation (.num 12) (.num (mkRat 4 10)))
        (.Rotation (.num (mkRat 2 10)) (.num (mkRat 3 10)) (.num (mkRat 5 10)))))
        (.Translation (.num 8) (.num 15))) := by
  refine ⟨?_, by decide⟩
  intro s rem e1 s2 u hatom hsemi
  have hcc : expression s = chain_continue expression e1 s2 := by
    rw [expression_of_atom_ok hatom, chain_check_semi u hsemi]
  refine ⟨?_, ?_, ?_⟩
  · intro rest e2 h2
    rw [hcc]
    unfold chain_continue
    rw [h2]
  · intro er h2
    rw [hcc]
    unfold chain_continue
    rw [h2]
  · intro er h2
    rw [hcc]
    unfold chain_continue
    rw [h2]

theorem C4_chaining_witness :
    expression ("translation(1,2); rotation(1,2,3)".toList) =
      .ok [] (.Chained (.Translation (.num 1) (.num 2))
        (.Rotation (.num 1) (.num 2) (.num 3))) :=
  (C4_chaining.1 ("translation(1,2); rotation(1,2,3)".toList)
      ("; rotation(1,2,3)".toList) (.Translation (.num 1) (.num 2))
      ("rotation(1,2,3)".toList) () (by decide) (by decide)).1
    [] (.Rotation (.num 1) (.num 2) (.num 3)) (by decide)

/-- C5: when the atom alternation of the top-level parser has succeeded, no
`;` follows, and the remaining unconsumed text is empty or begins with `)` or
`}`, the single atom is returned as the complete expression with no error. -/
theorem C5_acceptable_end (s rem : List Char) (e : Expression)
    (hatom : atomP s = .ok rem e)
    (hclose : rem = [] ∨ startsWithChar rem ')' = true ∨ startsWithChar rem '}' = true) :
    expression s = .ok rem e := by
  rw [expression_of_atom_ok hatom]
  apply chain_check_closer
  rcases hclose with rfl | h | h
  · exact .inl rfl
  · right; left
    cases rem with
    | nil => simp [startsWithChar] at h
    | cons c t =>
      have hc : c = ')' := by simpa [startsWithChar] using h
      subst hc
      rw [dropWhile_cons_neg _ (by decide)]
      exact h
  · right; right
    cases rem with
    | nil => simp [startsWithChar] at h
    | cons c t =>
      have hc : c = '}' := by simpa [startsWithChar] using h
      subst hc
      rw [dropWhile_cons_neg _ (by decide)]
      exact h

theorem C5_acceptable_end_witness :
    expression ("translation(1,2))".toList) =
      .ok (")".toList) (.Translation (.num 1) (.num 2)) :=
  C5_acceptable_end ("translation(1,2))".toList) (")".toList)
    (.Translation (.num 1) (.num 2)) (by decide) (.inr (.inl (by decide)))

/-- C6: `"translation(0.7, 18.65)"` parses to `Translation{0.7, 18.65}` with
empty remainder, and `"rotation(1.15, 0.8, 0.553)"` parses to
`Rotation{1.15, 0.8, 0.553}` (float fields as exact rationals). -/
theorem C6_basic_expressions :
    expression ("translation(0.7, 18.65)".toList) =
      .ok [] (.Translation (.num (mkRat 7 10)) (.num (mkRat 1865 100))) ∧
    expression ("rotation(1.15, 0.8, 0.553)".toList) =
      .ok [] (.Rotation (.num (mkRat 115 100)) (.num (mkRat 8 10))
        (.num (mkRat 553 1000))) :=
  ⟨by decide, by decide⟩

/-- C7: the top-level parser terminates on every finite input: the fuelled
embedding never runs out of fuel at the default fuel, and the result is
unchanged by any larger fuel bound — every recursive self-call consumes at
least one character first. -/
theorem C7_termination (s : List Char) :
    expression s ≠ .bottom ∧ ∀ n, s.length < n → expressionF n s = expression s :=
  ⟨expression_ne_bottom s, fun _ hn => expressionF_eq_expression hn⟩

theorem C7_termination_witness :
    expression ("iter(translation(1,2))".toList) ≠ .bottom ∧
    expressionF 100 ("iter(translation(1,2))".toList) =
      expression ("iter(translation(1,2))".toList) :=
  ⟨(C7_termination _).1, (C7_termination ("iter(translation(1,2))".toList)).2 100 (by decide)⟩

/-- C8: the top-level parser is deterministic: two runs on the same text give
the same outcome — equal trees with identical remainders on success, or the
same error with the same reported remainder. -/
theorem C8_determinism (s : List Char) :
    (∀ rem1 e1 rem2 e2, expression s = .ok rem1 e1 → expression s = .ok rem2 e2 →
      e1 = e2 ∧ rem1 = rem2) ∧
    (∀ er1 er2, expression s = .err er1 → expression s = .err er2 → er1 = er2) ∧
    (∀ er1 er2, expression s = .fail er1 → expression s = .fail er2 → er1 = er2) := by
  refine ⟨?_, ?_, ?_⟩
  · intro rem1 e1 rem2 e2 h1 h2
    rw [h1] at h2
    injection h2 with hrem he
    exact ⟨he, hrem⟩
  · intro er1 er2 h1 h2
    rw [h1] at h2
    injection h2 with h
  · intro er1 er2 h1 h2
    rw [h1] at h2
    injection h2 with h

theorem C8_determinism_witness :
    (.Translation (.num 1) (.num 2) : Expression) = .Translation (.num 1) (.num 2) ∧
    ([] : List Char) = [] :=
  (C8_determinism ("translation(1,2)".toList)).1 [] (.Translation (.num 1) (.num 2))
    [] (.Translation (.num 1) (.num 2)) (by decide) (by decide)

theorem expression_ok_closer_step {s : List Char}
    (ih : ∀ t, t.length < s.length → ∀ rem e, expression t = .ok rem e →
      rem.dropWhile isWs = [] ∨ startsWithChar (rem.dropWhile isWs) ')' = true ∨
        startsWithChar (rem.dropWhile isWs) '}' = true)
    {rem : List Char} {e : Expression} (h : expression s = .ok rem e) :
    rem.dropWhile isWs = [] ∨ startsWithChar (rem.dropWhile isWs) ')' = true ∨
      startsWithChar (rem.dropWhile isWs) '}' = true := by
  rw [expression_unfold] at h
  unfold expression_body at h
  split at h
  · rename_i rem0 expr halt
    have lalt : rem0.length ≤ s.length :=
      Nat.le_of_lt (atom_ok_length (fun t r x hx => expression_ok_length hx) halt)
    unfold chain_check at h
    split at h
    · rename_i s2 u hsemi
      have lsemi := semicolon_separator_ok_length hsemi
      unfold chain_continue at h
      split at h
      · rename_i trailing additional hexp2
        cases h
        exact ih s2 (by omega) _ _ hexp2
      · exact ih s2 (by omega) _ _ h
    · rename_i inner hsemi
      split at h
      · rename_i hcond
        cases h
        have hinner := semicolon_separator_err_input hsemi
        rw [hinner] at hcond
        rcases (Bool.or_eq_true _ _).mp hcond with h1 | h1
        · rcases (Bool.or_eq_true _ _).mp h1 with h2 | h2
          · exact .inl (of_decide_eq_true h2)
          · exact .inr (.inl h2)
        · exact .inr (.inr h1)
      · exact absurd h (by simp)
    · exact absurd h (by simp)
    · exact absurd h (by simp)
  · rename_i hne
    exact (hne _ _ h).elim

theorem expression_ok_closer :
    ∀ (k : ℕ) (s : List Char), s.length ≤ k → ∀ (rem : List Char) (e : Expression),
      expression s = .ok rem e →
      rem.dropWhile isWs = [] ∨ startsWithChar (rem.dropWhile isWs) ')' = true ∨
        startsWithChar (rem.dropWhile isWs) '}' = true := by
  intro k
  induction k with
  | zero =>
    intro s hk rem e h
    exact expression_ok_closer_step (fun t ht => absurd ht (by omega)) h
  | succ k ih =>
    intro s hk rem e h
    exact expression_ok_closer_step (fun t ht => ih t (by omega)) h

/-- C9: whenever the top-level parser succeeds, the returned remainder, after
stripping leading whitespace, is empty or begins with `)` or `}`; success
never leaves other unconsumed non-whitespace text. -/
theorem C9_success_remainder (s rem : List Char) (e : Expression)
    (h : expression s = .ok rem e) :
    rem.dropWhile isWs = [] ∨ startsWithChar (rem.dropWhile isWs) ')' = true ∨
      startsWithChar (rem.dropWhile isWs) '}' = true :=
  expression_ok_closer s.length s (Nat.le_refl _) rem e h

theorem C9_success_remainder_witness :
    (("  ".toList).dropWhile isWs = [] ∨
      startsWithChar (("  ".toList).dropWhile isWs) ')' = true ∨
      startsWithChar (("  ".toList).dropWhile isWs) '}' = true) :=
  C9_success_remainder ("translation(1,2)  ".toList) ("  ".toList)
    (.Translation (.num 1) (.num 2)) (by decide)

/-- C10: the numeric syntax accepted by the `double` scanner is broader than
plain signed decimals — exponent notation and the special values are
recognized: `"translation(1e1, 2.5)"` parses to `Translation{10, 2.5}`, and
`double` accepts `nan` and `inf`. -/
theorem C10_numeric_literals :
    expression ("translation(1e1, 2.5)".toList) =
      .ok [] (.Translation (.num 10) (.num (mkRat 5 2))) ∧
    doubleP ("nan".toList) = .ok [] .nan ∧
    doubleP ("inf".toList) = .ok [] .inf :=
  ⟨by decide, by decide, by decide⟩

end Chapter2
